import Mathlib

set_option maxHeartbeats 1000000

namespace Graphein

/-! Shallow embedding of the graph-construction and graph-derivation pipeline of
`graphein/protein/graphs.py`.  NetworkX attribute dictionaries are modelled as
insertion-ordered association lists, pandas dataframes as lists of records, and
Python exceptions as an `Except` error channel. -/

instance {ε α : Type _} [DecidableEq ε] [DecidableEq α] : DecidableEq (Except ε α) :=
  fun x y =>
    match x, y with
    | .ok a, .ok b => decidable_of_iff (a = b) (by simp)
    | .error a, .error b => decidable_of_iff (a = b) (by simp)
    | .ok _, .error _ => isFalse (by simp)
    | .error _, .ok _ => isFalse (by simp)

/-- Python errors that the embedded functions can raise. -/
inductive PyErr where
  | keyError
  | typeError
  | assertionError
  | configurationError
  | indexError
  | attributeError
  deriving DecidableEq, Repr

/-- Dictionary lookup in an insertion-ordered association list: first entry with
the key wins (association lists built by `setA` have unique keys, matching a
Python dict). -/
def lookupA {κ α : Type _} [DecidableEq κ] : List (κ × α) → κ → Option α
  | [], _ => none
  | (k, v) :: rest, key => if k = key then some v else lookupA rest key

/-- Dictionary assignment `d[key] = v`: overwrite the value at an existing key,
keeping its position, else append the new entry at the end, matching the
insertion-order semantics of a Python dict. -/
def setA {κ α : Type _} [DecidableEq κ] : List (κ × α) → κ → α → List (κ × α)
  | [], key, v => [(key, v)]
  | (k, w) :: rest, key, v =>
      if k = key then (k, v) :: rest else (k, w) :: setA rest key v

@[simp] theorem lookupA_nil {κ α : Type _} [DecidableEq κ] (key : κ) :
    lookupA ([] : List (κ × α)) key = none := rfl

@[simp] theorem lookupA_cons {κ α : Type _} [DecidableEq κ] (k : κ) (v : α)
    (rest : List (κ × α)) (key : κ) :
    lookupA ((k, v) :: rest) key = if k = key then some v else lookupA rest key := rfl

theorem lookupA_setA_self {κ α : Type _} [DecidableEq κ] (l : List (κ × α))
    (key : κ) (v : α) : lookupA (setA l key v) key = some v := by
  induction l with
  | nil => simp [setA]
  | cons p rest ih =>
      obtain ⟨k, w⟩ := p
      by_cases h : k = key
      · simp [setA, h]
      · simp [setA, h, ih]

theorem lookupA_setA_ne {κ α : Type _} [DecidableEq κ] (l : List (κ × α))
    (key key' : κ) (v : α) (h : key ≠ key') :
    lookupA (setA l key v) key' = lookupA l key' := by
  induction l with
  | nil => simp [setA, h]
  | cons p rest ih =>
      obtain ⟨k, w⟩ := p
      by_cases hk : k = key
      · subst hk
        simp [setA, h]
      · simp [setA, hk, ih]

theorem lookupA_append {κ α : Type _} [DecidableEq κ] (l₁ l₂ : List (κ × α)) (key : κ) :
    lookupA (l₁ ++ l₂) key =
      match lookupA l₁ key with
      | some v => some v
      | none => lookupA l₂ key := by
  induction l₁ with
  | nil => simp
  | cons p rest ih =>
      obtain ⟨k, w⟩ := p
      by_cases h : k = key <;> simp [h, ih]

/-- Keys of an association list, in stored order. -/
def keysA {κ α : Type _} (l : List (κ × α)) : List κ := l.map Prod.fst

@[simp] theorem keysA_nil {κ α : Type _} : keysA ([] : List (κ × α)) = [] := rfl

@[simp] theorem keysA_cons {κ α : Type _} (k : κ) (v : α) (l : List (κ × α)) :
    keysA ((k, v) :: l) = k :: keysA l := rfl

theorem lookupA_eq_none_of_not_mem {κ α : Type _} [DecidableEq κ]
    (l : List (κ × α)) (key : κ) (h : key ∉ keysA l) : lookupA l key = none := by
  induction l with
  | nil => rfl
  | cons p rest ih =>
      obtain ⟨k, w⟩ := p
      have h1 : k ≠ key := by
        intro hk
        exact h (by simp [hk])
      have h2 : key ∉ keysA rest := fun hm => h (by simp [hm])
      simp [h1, ih h2]

theorem not_mem_keysA_of_lookupA_eq_none {κ α : Type _} [DecidableEq κ]
    (l : List (κ × α)) (key : κ) (h : lookupA l key = none) : key ∉ keysA l := by
  induction l with
  | nil => simp
  | cons p rest ih =>
      obtain ⟨k, w⟩ := p
      by_cases hk : k = key
      · simp [hk] at h
      · simp only [lookupA_cons, hk, if_false] at h
        intro hmem
        rcases (by simpa using hmem : key = k ∨ key ∈ keysA rest) with h1 | h1
        · exact hk h1.symm
        · exact ih h h1

theorem keysA_setA {κ α : Type _} [DecidableEq κ] (l : List (κ × α)) (key : κ) (v : α)
    (h : key ∈ keysA l) : keysA (setA l key v) = keysA l := by
  induction l with
  | nil => simp at h
  | cons p rest ih =>
      obtain ⟨k, w⟩ := p
      by_cases hk : k = key
      · simp [setA, hk]
      · have h2 : key ∈ keysA rest := by
          rcases (by simpa using h : key = k ∨ key ∈ keysA rest) with h1 | h1
          · exact absurd h1.symm hk
          · exact h1
        simp [setA, hk, ih h2]

/-! ### Attribute values and attribute dictionaries -/

/-- Values stored in a NetworkX attribute dictionary by the embedded code:
integers (weights and per-kind counts), strings, lists of strings and kind
sets. -/
inductive AttrVal where
  | nat (n : Nat)
  | str (s : String)
  | strs (l : List String)
  | kinds (s : List String)
  deriving DecidableEq

/-- A NetworkX attribute dictionary. -/
abbrev Attrs := List (String × AttrVal)

/-- One edge of a NetworkX multigraph: endpoints, the `kind` attribute (a set
of edge-type labels) and the optional `source` provenance attribute. -/
structure MEdge where
  u : String
  v : String
  kind : List String
  source : Option String := none
  deriving DecidableEq

/-- A NetworkX multigraph: node dictionary (node id to attribute dictionary),
edge list in insertion order, and graph-level metadata. -/
structure MGraph (μ : Type) where
  nodes : List (String × Attrs)
  edges : List MEdge
  meta : μ
  deriving DecidableEq

/-- A weighted simple graph produced by the multigraph collapse: node
dictionary, adjacency keyed by the canonical unordered node pair, and
graph-level metadata. -/
structure WGraph (μ : Type) where
  nodes : List (String × Attrs)
  adj : List ((String × String) × Attrs)
  meta : μ
  deriving DecidableEq

/-- Lexicographic comparison of character lists, used to canonicalise an
unordered node pair (any fixed total order works; this one reduces in the
kernel). -/
def strLeB : List Char → List Char → Bool
  | [], _ => true
  | _ :: _, [] => false
  | a :: as, b :: bs => if a = b then strLeB as bs else decide (a.toNat < b.toNat)

/-- Lexicographic comparison of strings. -/
def strLe (u v : String) : Bool := strLeB u.data v.data

theorem char_eq_of_toNat_eq {a b : Char} (h : a.toNat = b.toNat) : a = b :=
  Char.ext (UInt32.ext h)

theorem strLeB_total : ∀ as bs : List Char, strLeB as bs = true ∨ strLeB bs as = true := by
  intro as
  induction as with
  | nil =>
      intro bs
      exact Or.inl rfl
  | cons a as ih =>
      intro bs
      cases bs with
      | nil => exact Or.inr rfl
      | cons b bs =>
          by_cases hab : a = b
          · subst hab
            rcases ih bs with h | h
            · exact Or.inl (by simp [strLeB, h])
            · exact Or.inr (by simp [strLeB, h])
          · rcases Nat.lt_or_ge a.toNat b.toNat with h | h
            · exact Or.inl (by simp [strLeB, hab, h])
            · have hne2 : a.toNat ≠ b.toNat := fun hh => hab (char_eq_of_toNat_eq hh)
              have hlt : b.toNat < a.toNat :=
                Nat.lt_of_le_of_ne h (fun hh => hne2 hh.symm)
              exact Or.inr (by simp [strLeB, Ne.symm hab, hlt])

theorem strLeB_antisymm : ∀ as bs : List Char,
    strLeB as bs = true → strLeB bs as = true → as = bs := by
  intro as
  induction as with
  | nil =>
      intro bs h1 h2
      cases bs with
      | nil => rfl
      | cons b bs => simp [strLeB] at h2
  | cons a as ih =>
      intro bs h1 h2
      cases bs with
      | nil => simp [strLeB] at h1
      | cons b bs =>
          by_cases hab : a = b
          · subst hab
            simp only [strLeB, if_pos rfl] at h1 h2
            rw [ih bs h1 h2]
          · simp only [strLeB, if_neg hab, decide_eq_true_eq] at h1
            simp only [strLeB, if_neg (Ne.symm hab), decide_eq_true_eq] at h2
            exact absurd h2 (Nat.not_lt.mpr (Nat.le_of_lt h1))

theorem string_eq_of_data_eq {u v : String} (h : u.data = v.data) : u = v := by
  cases u
  cases v
  exact congrArg String.mk h

theorem strLe_total (u v : String) : strLe u v = true ∨ strLe v u = true :=
  strLeB_total u.data v.data

theorem strLe_antisymm {u v : String} (h1 : strLe u v = true) (h2 : strLe v u = true) :
    u = v :=
  string_eq_of_data_eq (strLeB_antisymm u.data v.data h1 h2)

/-- Canonical key of an unordered node pair, mirroring the symmetric edge
lookup of `nx.Graph`. -/
def pairKey (u v : String) : String × String := if strLe u v then (u, v) else (v, u)

theorem pairKey_comm (u v : String) : pairKey u v = pairKey v u := by
  unfold pairKey
  cases h1 : strLe u v with
  | true =>
      cases h2 : strLe v u with
      | true =>
          have huv := strLe_antisymm h1 h2
          subst huv
          rfl
      | false => simp
  | false =>
      cases h2 : strLe v u with
      | true => simp
      | false =>
          rcases strLe_total u v with h | h
          · rw [h1] at h
            exact absurd h (by simp)
          · rw [h2] at h
            exact absurd h (by simp)

/-! ### `compute_weighted_graph_from_multigraph` -/

/-- In-order union of two kind sets (`set.update` in Python): keep the existing
elements, append the new ones not already present.  A Python set of labels is
modelled throughout as a duplicate-free list. -/
def listUnion (s t : List String) : List String :=
  s ++ t.filter (fun k => k ∉ s)

@[simp] theorem mem_listUnion (s t : List String) (k : String) :
    k ∈ listUnion s t ↔ k ∈ s ∨ k ∈ t := by
  by_cases h : k ∈ s <;> simp [listUnion, List.mem_filter, h]

@[simp] theorem listUnion_nil_left (t : List String) : listUnion [] t = t := by
  simp [listUnion]

@[simp] theorem listUnion_nil_right (s : List String) : listUnion s [] = s := by
  simp [listUnion]

theorem listUnion_assoc (s t u : List String) :
    listUnion (listUnion s t) u = listUnion s (listUnion t u) := by
  simp only [listUnion, List.filter_append, List.append_assoc]
  congr 2
  rw [List.filter_filter]
  apply List.filter_congr
  intro k _
  by_cases hs : k ∈ s <;> by_cases ht : k ∈ t <;>
    simp [hs, ht, List.mem_append, List.mem_filter]

/-- One `H[u][v][kind] += 1 / = 1` update from the `has_edge` branch of
`compute_weighted_graph_from_multigraph`: increment an existing integer
attribute, create it at 1 after a `KeyError`, and fail with a `TypeError`
when the attribute holds a non-integer value. -/
def pyIncr (a : Attrs) (k : String) : Except PyErr Attrs :=
  match lookupA a k with
  | some (.nat n) => .ok (setA a k (.nat (n + 1)))
  | some _ => .error .typeError
  | none => .ok (setA a k (.nat 1))

/-- Apply `pyIncr` to each kind label of the current multigraph edge, in order. -/
def pyIncrAll (a : Attrs) : List String → Except PyErr Attrs
  | [] => .ok a
  | k :: ks => do pyIncrAll (← pyIncr a k) ks

/-- The `H[u][v][kind] = 1` loop from the `add_edge` branch. -/
def setOnes (a : Attrs) : List String → Attrs
  | [] => a
  | k :: ks => setOnes (setA a k (.nat 1)) ks

/-- Ensure a node exists (with an empty attribute dictionary), as `nx` does when
`add_edge` mentions a node that is not yet present. -/
def ensureNode (ns : List (String × Attrs)) (id : String) : List (String × Attrs) :=
  if (lookupA ns id).isSome then ns else ns ++ [(id, [])]

/-- `nx.Graph.add_nodes_from` with data: insert each node, merging the supplied
attribute dictionary into the existing one when the node is already present. -/
def addNodesFrom (init : List (String × Attrs)) (new : List (String × Attrs)) :
    List (String × Attrs) :=
  new.foldl
    (fun ns p =>
      match lookupA ns p.1 with
      | some old => setA ns p.1 (p.2.foldl (fun acc q => setA acc q.1 q.2) old)
      | none => ns ++ [(p.1, p.2)])
    init

/-- Processing of one multigraph edge in `compute_weighted_graph_from_multigraph`,
lines 840-852 of `graphs.py`: on an existing collapsed edge add the kind-set
size to `weight`, union the kind sets and bump the per-kind counters; on a new
pair create the edge with `weight`, `kind` and per-kind counters set to 1. -/
def collapseEdgeStep (st : List (String × Attrs) × List ((String × String) × Attrs))
    (e : MEdge) : Except PyErr (List (String × Attrs) × List ((String × String) × Attrs)) :=
  match lookupA st.2 (pairKey e.u e.v) with
  | some a => do
      let a ← match lookupA a "weight" with
        | some (.nat w) => .ok (setA a "weight" (.nat (w + e.kind.length)))
        | some _ => .error .typeError
        | none => .error .keyError
      let a ← match lookupA a "kind" with
        | some (.kinds s) => .ok (setA a "kind" (.kinds (listUnion s e.kind)))
        | some _ => .error .typeError
        | none => .error .keyError
      let a ← pyIncrAll a e.kind
      .ok (st.1, setA st.2 (pairKey e.u e.v) a)
  | none =>
      .ok (ensureNode (ensureNode st.1 e.u) e.v,
        st.2 ++ [(pairKey e.u e.v,
          setOnes [("weight", .nat e.kind.length), ("kind", .kinds e.kind)] e.kind)])

/-- Left-to-right fold of `collapseEdgeStep` over the multigraph edge list. -/
def collapseGo (st : List (String × Attrs) × List ((String × String) × Attrs)) :
    List MEdge → Except PyErr (List (String × Attrs) × List ((String × String) × Attrs))
  | [] => .ok st
  | e :: es => do collapseGo (← collapseEdgeStep st e) es

/-- `compute_weighted_graph_from_multigraph`: copy the node dictionary and the
graph metadata, then collapse parallel edges pair by pair. -/
def computeWeightedGraphFromMultigraph {μ : Type} (g : MGraph μ) :
    Except PyErr (WGraph μ) := do
  let st ← collapseGo (addNodesFrom [] g.nodes, []) g.edges
  .ok ⟨st.1, st.2, g.meta⟩

/-! ### Claim-side accounting for the collapse -/

/-- The parallel edges of a multigraph lying on one unordered node pair. -/
def pairEdges {μ : Type} (g : MGraph μ) (u v : String) : List MEdge :=
  g.edges.filter (fun e => pairKey e.u e.v = pairKey u v)

/-- Sum, over a list of parallel edges, of the size of each kind set. -/
def kindWeight (es : List MEdge) : Nat := (es.map (fun e => e.kind.length)).sum

/-- Union of the kind sets of a list of parallel edges, in encounter order. -/
def kindUnion (es : List MEdge) : List String :=
  es.foldr (fun e acc => listUnion e.kind acc) []

/-- Number of parallel edges whose kind set contains the given label. -/
def kindCount (es : List MEdge) (lbl : String) : Nat :=
  es.countP (fun e => lbl ∈ e.kind)

/-- Attribute of the collapsed edge on the unordered pair `{u, v}`. -/
def edgeAttr {μ : Type} (h : WGraph μ) (u v : String) (k : String) : Option AttrVal :=
  (lookupA h.adj (pairKey u v)).bind (fun a => lookupA a k)

/-! ### Invariant of the collapse fold -/

theorem mem_keysA_of_lookupA_eq_some {κ α : Type _} [DecidableEq κ]
    (l : List (κ × α)) (key : κ) (v : α) (h : lookupA l key = some v) :
    key ∈ keysA l := by
  by_contra hmem
  rw [lookupA_eq_none_of_not_mem l key hmem] at h
  exact Option.noConfusion h

theorem countP_keysA_eq_zero {κ α : Type _} [DecidableEq κ]
    (l : List (κ × α)) (key : κ) (h : key ∉ keysA l) :
    l.countP (fun p => p.1 = key) = 0 := by
  rw [List.countP_eq_zero]
  intro p hp hkey
  simp at hkey
  exact h (hkey ▸ List.mem_map_of_mem Prod.fst hp)

theorem countP_keysA_eq_one {κ α : Type _} [DecidableEq κ]
    (l : List (κ × α)) (key : κ) (v : α) (hnd : (keysA l).Nodup)
    (h : lookupA l key = some v) : l.countP (fun p => p.1 = key) = 1 := by
  induction l with
  | nil => simp at h
  | cons p rest ih =>
      obtain ⟨k, w⟩ := p
      rw [keysA_cons, List.nodup_cons] at hnd
      by_cases hk : k = key
      · subst hk
        rw [List.countP_cons_of_pos _ _ (by simp)]
        rw [countP_keysA_eq_zero rest k hnd.1]
      · rw [List.countP_cons_of_neg _ _ (by simp [hk])]
        simp only [lookupA_cons, hk, if_false] at h
        exact ih hnd.2 h

/-- The `bump` performed on a per-kind counter by the `has_edge` branch. -/
def bump : Option AttrVal → AttrVal
  | some (.nat n) => .nat (n + 1)
  | _ => .nat 1

theorem lookupA_setOnes (ks : List String) : ∀ (a : Attrs) (key : String),
    lookupA (setOnes a ks) key = if key ∈ ks then some (.nat 1) else lookupA a key := by
  induction ks with
  | nil =>
      intro a key
      simp [setOnes]
  | cons k ks ih =>
      intro a key
      by_cases hmem : key ∈ ks
      · simp [setOnes, ih, hmem]
      · by_cases hk : key = k
        · subst hk
          simp [setOnes, ih, hmem, lookupA_setA_self]
        · simp [setOnes, ih, hmem, hk, lookupA_setA_ne _ _ _ _ (Ne.symm hk)]

theorem pyIncrAll_ok (ks : List String) : ∀ (a : Attrs), ks.Nodup →
    (∀ k ∈ ks, lookupA a k = none ∨ ∃ n, lookupA a k = some (.nat n)) →
    ∃ b, pyIncrAll a ks = .ok b ∧ ∀ key,
      lookupA b key = if key ∈ ks then some (bump (lookupA a key)) else lookupA a key := by
  induction ks with
  | nil =>
      intro a _ _
      exact ⟨a, rfl, by intro key; simp⟩
  | cons k ks ih =>
      intro a hnd hpre
      have hk := hpre k (by simp)
      have hstep : pyIncr a k = .ok (setA a k (bump (lookupA a k))) := by
        rcases hk with h | ⟨n, h⟩ <;> simp [pyIncr, h, bump]
      have hnd' : ks.Nodup := (List.nodup_cons.mp hnd).2
      have hknotin : k ∉ ks := (List.nodup_cons.mp hnd).1
      have hpre' : ∀ k' ∈ ks,
          lookupA (setA a k (bump (lookupA a k))) k' = none ∨
            ∃ n, lookupA (setA a k (bump (lookupA a k))) k' = some (.nat n) := by
        intro k' hk'
        have hne : k ≠ k' := fun h => hknotin (h ▸ hk')
        rw [lookupA_setA_ne _ _ _ _ hne]
        exact hpre k' (by simp [hk'])
      obtain ⟨b, hb, hchar⟩ := ih (setA a k (bump (lookupA a k))) hnd' hpre'
      refine ⟨b, ?_, ?_⟩
      · show pyIncr a k >>= (fun a => pyIncrAll a ks) = Except.ok b
        rw [hstep]
        exact hb
      · intro key
        by_cases hmem : key ∈ ks
        · have heq : lookupA (setA a k (bump (lookupA a k))) key = lookupA a key := by
            have hne : k ≠ key := fun h => hknotin (h ▸ hmem)
            exact lookupA_setA_ne _ _ _ _ hne
          simp [hchar, hmem, heq]
        · by_cases hkey : key = k
          · subst hkey
            simp [hchar, hmem, lookupA_setA_self]
          · have heq : lookupA (setA a k (bump (lookupA a k))) key = lookupA a key :=
              lookupA_setA_ne _ _ _ _ (fun h => hkey h.symm)
            simp [hchar, hmem, hkey, heq]

/-- Parallel-edge class of an edge list on a canonical pair key. -/
def classOf (es : List MEdge) (key : String × String) : List MEdge :=
  es.filter (fun e => pairKey e.u e.v = key)

theorem classOf_append (es : List MEdge) (e : MEdge) (key : String × String) :
    classOf (es ++ [e]) key =
      classOf es key ++ (if pairKey e.u e.v = key then [e] else []) := by
  unfold classOf
  rw [List.filter_append]
  by_cases h : pairKey e.u e.v = key <;> simp [h]

theorem kindWeight_append (l₁ l₂ : List MEdge) :
    kindWeight (l₁ ++ l₂) = kindWeight l₁ + kindWeight l₂ := by
  simp [kindWeight]

theorem kindUnion_append (l₁ l₂ : List MEdge) :
    kindUnion (l₁ ++ l₂) = listUnion (kindUnion l₁) (kindUnion l₂) := by
  induction l₁ with
  | nil => simp [kindUnion]
  | cons e l ih =>
      simp only [List.cons_append, kindUnion, List.foldr_cons] at ih ⊢
      rw [ih, ← listUnion_assoc]

theorem kindCount_append (l₁ l₂ : List MEdge) (lbl : String) :
    kindCount (l₁ ++ l₂) lbl = kindCount l₁ lbl + kindCount l₂ lbl := by
  simp [kindCount]

@[simp] theorem kindUnion_nil : kindUnion [] = ([] : List String) := rfl

@[simp] theorem kindUnion_singleton (e : MEdge) : kindUnion [e] = e.kind := by
  simp [kindUnion]

@[simp] theorem kindWeight_singleton (e : MEdge) : kindWeight [e] = e.kind.length := by
  simp [kindWeight]

@[simp] theorem kindCount_singleton (e : MEdge) (lbl : String) :
    kindCount [e] lbl = if lbl ∈ e.kind then 1 else 0 := by
  simp [kindCount, List.countP_cons]

/-- Well-formedness of one collapsed attribute dictionary for a class of
parallel edges: the dual accounting from the specification. -/
def goodAttrs (cls : List MEdge) (a : Attrs) : Prop :=
  lookupA a "weight" = some (.nat (kindWeight cls)) ∧
  lookupA a "kind" = some (.kinds (kindUnion cls)) ∧
  ∀ lbl, lbl ≠ "weight" → lbl ≠ "kind" →
    lookupA a lbl =
      if lbl ∈ kindUnion cls then some (.nat (kindCount cls lbl)) else none

/-- Invariant of the collapse fold relative to the already-processed edges. -/
def adjInv (es : List MEdge) (adj : List ((String × String) × Attrs)) : Prop :=
  (keysA adj).Nodup ∧
  ∀ key, (classOf es key = [] → lookupA adj key = none) ∧
    (classOf es key ≠ [] → ∃ a, lookupA adj key = some a ∧ goodAttrs (classOf es key) a)

/-- Kind sets free of the reserved attribute names `weight` and `kind`. -/
def reservedFree (es : List MEdge) : Prop :=
  ∀ e ∈ es, "weight" ∉ e.kind ∧ "kind" ∉ e.kind

/-- Endpoints of every listed edge are present in the node dictionary. -/
def endpointsClosed (ns : List (String × Attrs)) (es : List MEdge) : Prop :=
  ∀ e ∈ es, e.u ∈ keysA ns ∧ e.v ∈ keysA ns

instance (ns : List (String × Attrs)) (es : List MEdge) :
    Decidable (endpointsClosed ns es) :=
  decidable_of_iff (∀ e ∈ es, e.u ∈ keysA ns ∧ e.v ∈ keysA ns) Iff.rfl

instance (es : List MEdge) : Decidable (reservedFree es) :=
  decidable_of_iff (∀ e ∈ es, "weight" ∉ e.kind ∧ "kind" ∉ e.kind) Iff.rfl

theorem ensureNode_of_mem (ns : List (String × Attrs)) (id : String)
    (h : id ∈ keysA ns) : ensureNode ns id = ns := by
  unfold ensureNode
  cases hl : lookupA ns id with
  | none => exact absurd h (not_mem_keysA_of_lookupA_eq_none ns id hl)
  | some v => simp

theorem except_bind_ok {ε α β : Type _} (a : α) (f : α → Except ε β) :
    (Except.ok a >>= f) = f a := rfl

theorem except_bind_error {ε α β : Type _} (e : ε) (f : α → Except ε β) :
    ((Except.error e : Except ε α) >>= f) = Except.error e := rfl

theorem nodup_append_singleton {κ : Type _} (l : List κ) (x : κ)
    (h1 : l.Nodup) (h2 : x ∉ l) : (l ++ [x]).Nodup := by
  rw [List.nodup_append]
  exact ⟨h1, List.nodup_singleton x, by simpa [List.disjoint_singleton] using h2⟩

theorem mem_kindUnion_of_mem {es : List MEdge} {e : MEdge} {k : String}
    (he : e ∈ es) (hk : k ∈ e.kind) : k ∈ kindUnion es := by
  induction es with
  | nil => simp at he
  | cons f fs ih =>
      rcases List.mem_cons.mp he with rfl | hmem
      · simp [kindUnion, hk]
      · simp only [kindUnion, List.foldr_cons, mem_listUnion]
        exact Or.inr (by simpa [kindUnion] using ih hmem)

theorem exists_mem_of_mem_kindUnion {es : List MEdge} {k : String}
    (h : k ∈ kindUnion es) : ∃ e ∈ es, k ∈ e.kind := by
  induction es with
  | nil => simp [kindUnion] at h
  | cons f fs ih =>
      rcases (mem_listUnion _ _ _).mp (by simpa [kindUnion] using h) with h1 | h1
      · exact ⟨f, by simp, h1⟩
      · obtain ⟨e, he, hke⟩ := ih (by simpa [kindUnion] using h1)
        exact ⟨e, by simp [he], hke⟩

theorem kindCount_eq_zero {es : List MEdge} {lbl : String}
    (h : lbl ∉ kindUnion es) : kindCount es lbl = 0 := by
  rw [kindCount, List.countP_eq_zero]
  intro e he
  simp only [decide_eq_true_eq]
  intro hk
  exact h (mem_kindUnion_of_mem he hk)

theorem collapseEdgeStep_inv (done : List MEdge)
    (st : List (String × Attrs) × List ((String × String) × Attrs)) (e : MEdge)
    (hres : "weight" ∉ e.kind ∧ "kind" ∉ e.kind) (hknd : e.kind.Nodup)
    (hinv : adjInv done st.2) :
    ∃ st', collapseEdgeStep st e = .ok st' ∧ adjInv (done ++ [e]) st'.2 ∧
      (e.u ∈ keysA st.1 → e.v ∈ keysA st.1 → st'.1 = st.1) := by
  by_cases hcls : classOf done (pairKey e.u e.v) = []
  · -- no collapsed edge yet on this pair: the add_edge branch runs
    have hlook : lookupA st.2 (pairKey e.u e.v) = none := (hinv.2 _).1 hcls
    refine ⟨(ensureNode (ensureNode st.1 e.u) e.v,
      st.2 ++ [(pairKey e.u e.v,
        setOnes [("weight", .nat e.kind.length), ("kind", .kinds e.kind)] e.kind)]),
      ?_, ⟨?_, ?_⟩, ?_⟩
    · simp only [collapseEdgeStep, hlook]
    · -- keys stay nodup
      have : keysA (st.2 ++ [(pairKey e.u e.v,
          setOnes [("weight", .nat e.kind.length), ("kind", .kinds e.kind)] e.kind)]) =
          keysA st.2 ++ [pairKey e.u e.v] := by
        simp [keysA]
      rw [this]
      exact nodup_append_singleton _ _ hinv.1 (not_mem_keysA_of_lookupA_eq_none _ _ hlook)
    · intro key
      rw [classOf_append]
      by_cases hkey : pairKey e.u e.v = key
      · subst hkey
        rw [hcls, if_pos rfl]
        constructor
        · intro hfalse
          simp at hfalse
        · intro _
          refine ⟨setOnes [("weight", .nat e.kind.length), ("kind", .kinds e.kind)]
            e.kind, ?_, ?_, ?_, ?_⟩
          · rw [lookupA_append, hlook]
            simp
          · rw [lookupA_setOnes]
            simp [hres.1]
          · rw [lookupA_setOnes]
            simp [hres.2, Ne.symm]
          · intro lbl hw hk
            rw [lookupA_setOnes]
            simp only [List.nil_append, kindUnion_singleton, kindCount_singleton]
            by_cases hmem : lbl ∈ e.kind
            · simp [hmem]
            · simp [hmem, hw, hk, Ne.symm hw, Ne.symm hk]
      · simp only [hkey, if_false, List.append_nil]
        have hlk : lookupA (st.2 ++ [(pairKey e.u e.v,
            setOnes [("weight", .nat e.kind.length), ("kind", .kinds e.kind)] e.kind)]) key =
            lookupA st.2 key := by
          rw [lookupA_append]
          cases hc : lookupA st.2 key with
          | some a => rfl
          | none => simp [hkey]
        rw [hlk]
        exact hinv.2 key
    · intro hu hv
      rw [ensureNode_of_mem _ _ hu, ensureNode_of_mem _ _ hv]
  · -- an edge already exists on this pair: the has_edge branch runs
    obtain ⟨a, ha, hgw, hgk, hgc⟩ := (hinv.2 _).2 hcls
    have hwk : ("weight" : String) ≠ "kind" := by decide
    have h2 : lookupA (setA a "weight" (.nat (kindWeight (classOf done (pairKey e.u e.v)) + e.kind.length)))
        "kind" = some (.kinds (kindUnion (classOf done (pairKey e.u e.v)))) := by
      rw [lookupA_setA_ne _ _ _ _ hwk]
      exact hgk
    have hpre : ∀ k ∈ e.kind,
        lookupA (setA (setA a "weight" (.nat (kindWeight (classOf done (pairKey e.u e.v)) + e.kind.length)))
          "kind" (.kinds (listUnion (kindUnion (classOf done (pairKey e.u e.v))) e.kind))) k = none ∨
        ∃ n, lookupA (setA (setA a "weight" (.nat (kindWeight (classOf done (pairKey e.u e.v)) + e.kind.length)))
          "kind" (.kinds (listUnion (kindUnion (classOf done (pairKey e.u e.v))) e.kind))) k = some (.nat n) := by
      intro k hkmem
      have hkin : k ∈ e.kind := hkmem
      have hk1 : k ≠ "weight" := fun h => hres.1 (h ▸ hkin)
      have hk2 : k ≠ "kind" := fun h => hres.2 (h ▸ hkin)
      rw [lookupA_setA_ne _ _ _ _ (Ne.symm hk2), lookupA_setA_ne _ _ _ _ (Ne.symm hk1)]
      rw [hgc k hk1 hk2]
      by_cases hmem : k ∈ kindUnion (classOf done (pairKey e.u e.v))
      · rw [if_pos hmem]
        exact Or.inr ⟨_, rfl⟩
      · rw [if_neg hmem]
        exact Or.inl rfl
    obtain ⟨b, hb, hchar⟩ := pyIncrAll_ok e.kind _ hknd hpre
    have hlkb : ∀ k, k ∉ e.kind →
        lookupA b k = lookupA (setA (setA a "weight"
          (.nat (kindWeight (classOf done (pairKey e.u e.v)) + e.kind.length)))
          "kind" (.kinds (listUnion (kindUnion (classOf done (pairKey e.u e.v))) e.kind))) k := by
      intro k hk
      rw [hchar k]
      simp [hk]
    refine ⟨(st.1, setA st.2 (pairKey e.u e.v) b), ?_, ⟨?_, ?_⟩, fun _ _ => rfl⟩
    · simp only [collapseEdgeStep, ha, hgw, except_bind_ok, h2, hb]
    · rw [keysA_setA _ _ _ (mem_keysA_of_lookupA_eq_some _ _ _ ha)]
      exact hinv.1
    · intro key
      rw [classOf_append]
      by_cases hkey : pairKey e.u e.v = key
      · subst hkey
        rw [if_pos rfl]
        constructor
        · intro hfalse
          simp at hfalse
        · intro _
          refine ⟨b, lookupA_setA_self _ _ _, ?_, ?_, ?_⟩
          · -- weight of the merged class
            rw [hlkb "weight" hres.1, lookupA_setA_ne _ _ _ _ (Ne.symm hwk),
              lookupA_setA_self]
            simp [kindWeight_append]
          · -- kind union of the merged class
            rw [hlkb "kind" hres.2, lookupA_setA_self]
            simp [kindUnion_append]
          · -- per-label counters of the merged class
            intro lbl hw hk
            have hval : lookupA (setA (setA a "weight"
                (.nat (kindWeight (classOf done (pairKey e.u e.v)) + e.kind.length)))
                "kind" (.kinds (listUnion (kindUnion (classOf done (pairKey e.u e.v))) e.kind))) lbl =
                lookupA a lbl := by
              rw [lookupA_setA_ne _ _ _ _ (Ne.symm hk), lookupA_setA_ne _ _ _ _ (Ne.symm hw)]
            rw [hchar lbl]
            simp only [hval, hgc lbl hw hk]
            rw [kindUnion_append, kindCount_append, kindUnion_singleton, kindCount_singleton]
            by_cases hmem : lbl ∈ e.kind
            · by_cases hu : lbl ∈ kindUnion (classOf done (pairKey e.u e.v))
              · simp [hmem, hu, bump]
              · simp [hmem, hu, bump, kindCount_eq_zero hu]
            · by_cases hu : lbl ∈ kindUnion (classOf done (pairKey e.u e.v))
              · simp [hmem, hu]
              · simp [hmem, hu]
      · simp only [hkey, if_false, List.append_nil]
        rw [lookupA_setA_ne _ _ _ _ hkey]
        exact hinv.2 key

theorem collapseGo_inv (es : List MEdge) : ∀ (done : List MEdge)
    (st : List (String × Attrs) × List ((String × String) × Attrs)),
    reservedFree es → (∀ e ∈ es, e.kind.Nodup) → adjInv done st.2 →
    ∃ st', collapseGo st es = .ok st' ∧ adjInv (done ++ es) st'.2 ∧
      (endpointsClosed st.1 es → st'.1 = st.1) := by
  induction es with
  | nil =>
      intro done st _ _ hinv
      exact ⟨st, rfl, by simpa using hinv, fun _ => rfl⟩
  | cons e es ih =>
      intro done st hres hknd hinv
      obtain ⟨st1, hstep, hinv1, hnodes1⟩ :=
        collapseEdgeStep_inv done st e (hres e (by simp)) (hknd e (by simp)) hinv
      obtain ⟨st', hgo, hinv', hnodes'⟩ :=
        ih (done ++ [e]) st1 (fun f hf => hres f (by simp [hf]))
          (fun f hf => hknd f (by simp [hf])) hinv1
      refine ⟨st', ?_, ?_, ?_⟩
      · show collapseEdgeStep st e >>= (fun st => collapseGo st es) = Except.ok st'
        rw [hstep]
        exact hgo
      · simpa [List.append_assoc] using hinv'
      · intro hep
        have h1 : st1.1 = st.1 :=
          hnodes1 (hep e (by simp)).1 (hep e (by simp)).2
        have h2 : endpointsClosed st1.1 es := by
          rw [h1]
          intro f hf
          exact hep f (by simp [hf])
        rw [hnodes' h2, h1]

theorem addNodesFrom_of_disjoint (l : List (String × Attrs)) :
    ∀ init : List (String × Attrs), (keysA l).Nodup →
    (∀ k ∈ keysA l, k ∉ keysA init) → addNodesFrom init l = init ++ l := by
  induction l with
  | nil =>
      intro init _ _
      simp [addNodesFrom]
  | cons p rest ih =>
      intro init hnd hdis
      obtain ⟨k, a⟩ := p
      have hlk : lookupA init k = none :=
        lookupA_eq_none_of_not_mem _ _ (hdis k (by simp))
      have step : addNodesFrom init ((k, a) :: rest) = addNodesFrom (init ++ [(k, a)]) rest := by
        simp [addNodesFrom, hlk]
      rw [step, ih (init ++ [(k, a)]) (by simpa using hnd.of_cons) ?_]
      · simp
      · intro k2 hk2
        have hne : k2 ≠ k := by
          intro h
          exact (List.nodup_cons.mp (by simpa using hnd)).1 (h ▸ hk2)
        intro hmem
        rcases (by simpa [keysA] using hmem : k2 ∈ keysA init ∨ k2 = k) with h1 | h1
        · exact hdis k2 (by simp [hk2]) h1
        · exact hne h1

theorem collapseEdgeStep_nodes (st : List (String × Attrs) × List ((String × String) × Attrs))
    (e : MEdge) (st' : List (String × Attrs) × List ((String × String) × Attrs))
    (h : collapseEdgeStep st e = .ok st')
    (hu : e.u ∈ keysA st.1) (hv : e.v ∈ keysA st.1) : st'.1 = st.1 := by
  unfold collapseEdgeStep at h
  cases hL : lookupA st.2 (pairKey e.u e.v) with
  | none =>
      rw [hL] at h
      simp only [Except.ok.injEq] at h
      rw [← h]
      show (ensureNode (ensureNode st.1 e.u) e.v) = st.1
      rw [ensureNode_of_mem _ _ hu, ensureNode_of_mem _ _ hv]
  | some a =>
      rw [hL] at h
      simp only [] at h
      cases hW : lookupA a "weight" with
      | none =>
          rw [hW] at h
          simp only [except_bind_error] at h
          exact absurd h (by simp)
      | some v =>
          rw [hW] at h
          cases v with
          | nat w =>
              simp only [except_bind_ok] at h
              cases hK : lookupA (setA a "weight" (.nat (w + e.kind.length))) "kind" with
              | none =>
                  rw [hK] at h
                  simp only [except_bind_error] at h
                  exact absurd h (by simp)
              | some v2 =>
                  rw [hK] at h
                  cases v2 with
                  | kinds s =>
                      simp only [except_bind_ok] at h
                      cases hP : pyIncrAll (setA (setA a "weight" (.nat (w + e.kind.length)))
                          "kind" (.kinds (listUnion s e.kind))) e.kind with
                      | error err =>
                          rw [hP] at h
                          simp only [except_bind_error] at h
                          exact absurd h (by simp)
                      | ok b =>
                          rw [hP] at h
                          simp only [except_bind_ok, Except.ok.injEq] at h
                          rw [← h]
                  | nat n =>
                      simp only [except_bind_error] at h
                      exact absurd h (by simp)
                  | str s =>
                      simp only [except_bind_error] at h
                      exact absurd h (by simp)
                  | strs l =>
                      simp only [except_bind_error] at h
                      exact absurd h (by simp)
          | str s =>
              simp only [except_bind_error] at h
              exact absurd h (by simp)
          | strs l =>
              simp only [except_bind_error] at h
              exact absurd h (by simp)
          | kinds s =>
              simp only [except_bind_error] at h
              exact absurd h (by simp)

theorem collapseGo_nodes (es : List MEdge) :
    ∀ (st st' : List (String × Attrs) × List ((String × String) × Attrs)),
    collapseGo st es = .ok st' → endpointsClosed st.1 es → st'.1 = st.1 := by
  induction es with
  | nil =>
      intro st st' h _
      injection h with h
      rw [← h]
  | cons e es ih =>
      intro st st' h hep
      have hbind : collapseEdgeStep st e >>= (fun s => collapseGo s es) = .ok st' := h
      cases hS : collapseEdgeStep st e with
      | error err =>
          rw [hS, except_bind_error] at hbind
          exact absurd hbind (by simp)
      | ok st1 =>
          rw [hS, except_bind_ok] at hbind
          have h1 : st1.1 = st.1 :=
            collapseEdgeStep_nodes st e st1 hS (hep e (by simp)).1 (hep e (by simp)).2
          have h2 : endpointsClosed st1.1 es := by
            rw [h1]
            intro f hf
            exact hep f (by simp [hf])
          rw [ih st1 st' hbind h2, h1]

theorem pairEdges_eq_classOf {μ : Type} (g : MGraph μ) (u v : String) :
    pairEdges g u v = classOf g.edges (pairKey u v) := rfl

/-- Claim C1 (amended): for a multigraph whose edges carry non-empty kind sets
none of which contains the reserved attribute names `weight` or `kind`, the
collapse succeeds and, for each node pair present in the multigraph, the
output has exactly one adjacency entry whose `weight` equals the sum of the
kind-set sizes of the parallel edges, whose `kind` set is the union of their
kind sets, and which carries, for every label in that union, a counter equal
to the number of parallel edges whose kind set contains the label. -/
theorem weighted_collapse_dual_accounting {μ : Type} (g : MGraph μ)
    (hne : ∀ e ∈ g.edges, e.kind ≠ [])
    (hknd : ∀ e ∈ g.edges, e.kind.Nodup)
    (hres : ∀ e ∈ g.edges, "weight" ∉ e.kind ∧ "kind" ∉ e.kind) :
    ∃ h, computeWeightedGraphFromMultigraph g = .ok h ∧
      ∀ u v, pairEdges g u v ≠ [] →
        h.adj.countP (fun p => p.1 = pairKey u v) = 1 ∧
        edgeAttr h u v "weight" = some (.nat (kindWeight (pairEdges g u v))) ∧
        edgeAttr h u v "kind" = some (.kinds (kindUnion (pairEdges g u v))) ∧
        ∀ lbl ∈ kindUnion (pairEdges g u v),
          edgeAttr h u v lbl = some (.nat (kindCount (pairEdges g u v) lbl)) := by
  have hinv0 : adjInv [] [] := by
    refine ⟨List.nodup_nil, fun key => ⟨fun _ => rfl, fun hne' => absurd rfl hne'⟩⟩
  obtain ⟨st', hgo, hinv, -⟩ :=
    collapseGo_inv g.edges [] (addNodesFrom [] g.nodes, []) hres hknd hinv0
  simp only [List.nil_append] at hinv
  refine ⟨⟨st'.1, st'.2, g.meta⟩, ?_, ?_⟩
  · unfold computeWeightedGraphFromMultigraph
    rw [hgo, except_bind_ok]
  · intro u v hpair
    rw [pairEdges_eq_classOf] at hpair
    obtain ⟨a, ha, hgw, hgk, hgc⟩ := (hinv.2 (pairKey u v)).2 hpair
    refine ⟨countP_keysA_eq_one _ _ _ hinv.1 ha, ?_, ?_, ?_⟩
    · simp only [edgeAttr, ha, pairEdges_eq_classOf]
      exact hgw
    · simp only [edgeAttr, ha, pairEdges_eq_classOf]
      exact hgk
    · intro lbl hlbl
      rw [pairEdges_eq_classOf] at hlbl
      obtain ⟨e, he, hke⟩ := exists_mem_of_mem_kindUnion hlbl
      have heg : e ∈ g.edges := (List.mem_filter.mp he).1
      have hne1 : lbl ≠ "weight" := fun hh => (hres e heg).1 (hh ▸ hke)
      have hne2 : lbl ≠ "kind" := fun hh => (hres e heg).2 (hh ▸ hke)
      simp only [edgeAttr, ha, pairEdges_eq_classOf]
      have hval := hgc lbl hne1 hne2
      rw [if_pos hlbl] at hval
      exact hval

/-- Concrete multigraph used to witness the amended collapse invariant. -/
def dualWG : MGraph Nat :=
  { nodes := [("a", []), ("b", []), ("c", [])],
    edges := [{ u := "a", v := "b", kind := ["x", "y"] },
              { u := "b", v := "a", kind := ["y"] },
              { u := "b", v := "c", kind := ["z"] }],
    meta := 0 }

/-- Witness for C1 (amended) at a concrete multigraph with two parallel edges
on the pair a-b: weight 3 = 2 + 1, kind union, per-label counts 2 and 1. -/
theorem weighted_collapse_dual_accounting_witness :
    ∃ h, computeWeightedGraphFromMultigraph dualWG = .ok h ∧
      h.adj.countP (fun p => p.1 = pairKey "a" "b") = 1 ∧
      edgeAttr h "a" "b" "weight" = some (.nat 3) ∧
      edgeAttr h "a" "b" "kind" = some (.kinds ["x", "y"]) ∧
      edgeAttr h "a" "b" "y" = some (.nat 2) ∧
      edgeAttr h "a" "b" "x" = some (.nat 1) := by
  obtain ⟨h, hok, hspec⟩ :=
    weighted_collapse_dual_accounting dualWG (by decide) (by decide) (by decide)
  obtain ⟨hcount, hw, hk, hcnt⟩ := hspec "a" "b" (by decide)
  refine ⟨h, hok, hcount, ?_, ?_, ?_, ?_⟩
  · rw [hw]
    decide
  · rw [hk]
    decide
  · rw [hcnt "y" (by decide)]
    decide
  · rw [hcnt "x" (by decide)]
    decide

/-- Concrete multigraph whose single edge carries the reserved label `weight`
in its kind set. -/
def reservedCexMG : MGraph Nat :=
  { nodes := [("a", []), ("b", [])],
    edges := [{ u := "a", v := "b", kind := ["weight", "x"] }],
    meta := 0 }

/-- Counterexample to claim C1 as stated: a multigraph with a single edge of
non-empty kind set containing the label `weight` collapses to an edge whose
`weight` attribute is 1, not the sum of kind-set sizes 2 (the dynamically
named per-kind counter overwrites the `weight` attribute). -/
theorem weighted_collapse_reserved_label_cex :
    (∀ e ∈ reservedCexMG.edges, e.kind ≠ []) ∧
    pairEdges reservedCexMG "a" "b" ≠ [] ∧
    kindWeight (pairEdges reservedCexMG "a" "b") = 2 ∧
    (computeWeightedGraphFromMultigraph reservedCexMG).toOption.map
      (fun h => edgeAttr h "a" "b" "weight") = some (some (.nat 1)) := by
  decide

/-- Claim C10: the multigraph-to-weighted-graph collapse leaves the node
dictionary (node set and per-node attributes) and the graph-level metadata
unchanged, for any multigraph with duplicate-free node ids whose edges only
mention existing nodes. -/
theorem weighted_collapse_frame {μ : Type} (g : MGraph μ)
    (hnd : (keysA g.nodes).Nodup) (hep : endpointsClosed g.nodes g.edges) :
    ∀ h, computeWeightedGraphFromMultigraph g = .ok h →
      h.nodes = g.nodes ∧ h.meta = g.meta := by
  intro h hok
  have hinit : addNodesFrom [] g.nodes = g.nodes := by
    have hd := addNodesFrom_of_disjoint g.nodes [] hnd (by intro k _; simp)
    simpa using hd
  unfold computeWeightedGraphFromMultigraph at hok
  cases hgo : collapseGo (addNodesFrom [] g.nodes, []) g.edges with
  | error err =>
      rw [hgo, except_bind_error] at hok
      exact absurd hok (by simp)
  | ok st' =>
      rw [hgo, except_bind_ok] at hok
      have hn : st'.1 = addNodesFrom [] g.nodes := by
        have hcl : endpointsClosed (addNodesFrom [] g.nodes, ([] : List ((String × String) × Attrs))).1 g.edges := by
          show endpointsClosed (addNodesFrom [] g.nodes) g.edges
          rw [hinit]
          exact hep
        exact collapseGo_nodes g.edges _ st' hgo hcl
      injection hok with hok
      rw [← hok]
      exact ⟨by rw [hn, hinit], rfl⟩

/-- Concrete multigraph used to witness the collapse frame property. -/
def frameWG : MGraph Nat :=
  { nodes := [("a", [("chain_id", .str "A")]), ("b", [])],
    edges := [{ u := "a", v := "b", kind := ["k1"] }],
    meta := 42 }

/-- Witness for C10 at a concrete multigraph: the collapse succeeds and keeps
the node dictionary and metadata intact. -/
theorem weighted_collapse_frame_witness :
    (computeWeightedGraphFromMultigraph frameWG).toOption.map
      (fun h => (h.nodes, h.meta)) = some (frameWG.nodes, 42) := by
  have hex : ∃ h, computeWeightedGraphFromMultigraph frameWG = .ok h := by
    cases hc : computeWeightedGraphFromMultigraph frameWG with
    | ok h => exact ⟨h, rfl⟩
    | error e => cases e <;> exact absurd hc (by decide)
  obtain ⟨h, hok⟩ := hex
  obtain ⟨h1, h2⟩ := weighted_collapse_frame frameWG (by decide) (by decide) h hok
  rw [hok]
  show some (h.nodes, h.meta) = some (frameWG.nodes, 42)
  rw [h1, h2]
  rfl

/-! ### `number_groups_of_runs` -/

/-- The change-indicator column `df["val"].shift() != df["val"]` of
`number_groups_of_runs`: `True` on the first row (`NaN != x`) and whenever the
value differs from the previous row. -/
def shiftNeq (l : List String) : List Bool :=
  match l with
  | [] => []
  | x :: xs => true :: List.zipWith (fun p c => decide (p ≠ c)) (x :: xs) xs

/-- The column `df.groupby("val")["idx"].cumsum()`: per-value running sum of
the indicator column, aligned to the original row order. -/
def cumsumBy : List (String × Bool) → (String → Nat) → List Nat
  | [], _ => []
  | (v, b) :: rest, acc =>
      (acc v + (if b then 1 else 0)) ::
        cumsumBy rest (fun w => if w = v then acc v + (if b then 1 else 0) else acc w)

/-- `number_groups_of_runs` (graphs.py 856-870): concatenate each value with
its per-value running count of run starts. -/
def numberGroupsOfRuns (l : List String) : List String :=
  List.zipWith (fun v n => v ++ toString n) l (cumsumBy (List.zip l (shiftNeq l)) (fun _ => 0))

/-- Run-length segmentation as the specification words it: walk the list in
order; each element gets its label concatenated with a 1-based per-label
occurrence counter that increments when the label differs from the
immediately preceding element and stays constant otherwise. -/
def runsSpecAux : List String → Option String → (String → Nat) → List String
  | [], _, _ => []
  | v :: rest, prev, cnt =>
      (v ++ toString (if prev = some v then cnt v else cnt v + 1)) ::
        runsSpecAux rest (some v)
          (fun w => if w = v then (if prev = some v then cnt v else cnt v + 1) else cnt w)

/-- Specification-side segmentation of a whole list. -/
def runsSpec (l : List String) : List String := runsSpecAux l none (fun _ => 0)

/-- Change indicator relative to an explicit previous value. -/
def idxFrom : Option String → List String → List Bool
  | _, [] => []
  | prev, v :: rest => decide (prev ≠ some v) :: idxFrom (some v) rest

theorem zipWith_neq_eq_idxFrom (xs : List String) : ∀ x : String,
    List.zipWith (fun p c => decide (p ≠ c)) (x :: xs) xs = idxFrom (some x) xs := by
  induction xs with
  | nil =>
      intro x
      rfl
  | cons y ys ih =>
      intro x
      show decide (x ≠ y) :: List.zipWith (fun p c => decide (p ≠ c)) (y :: ys) ys =
        decide (some x ≠ some y) :: idxFrom (some y) ys
      rw [ih y]
      congr 1
      by_cases h : x = y <;> simp [h]

theorem shiftNeq_eq_idxFrom (l : List String) : shiftNeq l = idxFrom none l := by
  cases l with
  | nil => rfl
  | cons x xs =>
      show true :: List.zipWith (fun p c => decide (p ≠ c)) (x :: xs) xs =
        decide (none ≠ some x) :: idxFrom (some x) xs
      rw [zipWith_neq_eq_idxFrom]
      rfl

theorem cumsum_eq_runsSpec (l : List String) : ∀ (prev : Option String) (cnt : String → Nat),
    List.zipWith (fun v n => v ++ toString n) l (cumsumBy (List.zip l (idxFrom prev l)) cnt) =
      runsSpecAux l prev cnt := by
  induction l with
  | nil =>
      intro prev cnt
      rfl
  | cons v rest ih =>
      intro prev cnt
      have hn : cnt v + (if decide (prev ≠ some v) then 1 else 0) =
          if prev = some v then cnt v else cnt v + 1 := by
        by_cases h : prev = some v <;> simp [h]
      show (v ++ toString (cnt v + (if decide (prev ≠ some v) then 1 else 0))) ::
          List.zipWith (fun v n => v ++ toString n) rest
            (cumsumBy (List.zip rest (idxFrom (some v) rest))
              (fun w => if w = v then cnt v + (if decide (prev ≠ some v) then 1 else 0)
                else cnt w)) =
        (v ++ toString (if prev = some v then cnt v else cnt v + 1)) ::
          runsSpecAux rest (some v)
            (fun w => if w = v then (if prev = some v then cnt v else cnt v + 1) else cnt w)
      rw [hn, ih (some v) (fun w => if w = v then (if prev = some v then cnt v else cnt v + 1)
        else cnt w)]

/-- Claim C2: the segment-id assignment of `number_groups_of_runs` coincides,
on every list of labels, with walking the list in order and appending to each
label a 1-based per-label occurrence counter that increments exactly when the
label changes from the immediately preceding element; in particular on
A,A,B,A,A,A,B,B it produces A1,A1,B1,A2,A2,A2,B2,B2. -/
theorem number_groups_of_runs_spec :
    (∀ l : List String, numberGroupsOfRuns l = runsSpec l) ∧
    numberGroupsOfRuns ["A", "A", "B", "A", "A", "A", "B", "B"] =
      ["A1", "A1", "B1", "A2", "A2", "A2", "B2", "B2"] := by
  have hmain : ∀ l : List String, numberGroupsOfRuns l = runsSpec l := by
    intro l
    unfold numberGroupsOfRuns runsSpec
    rw [shiftNeq_eq_idxFrom]
    exact cumsum_eq_runsSpec l none (fun _ => 0)
  exact ⟨hmain, by decide⟩

/-! ### `construct_graphs_mp` and `_mp_graph_constructor` -/

/-- `_mp_graph_constructor` (graphs.py 655-684): run one construction task
(code- or path-based, mirroring `use_pdb_code`), catching every error at the
task boundary and replacing it with the null placeholder.  The single-item
constructor is abstracted as a fallible function, since the construction chain
depends on fetched structure data. -/
def mpGraphConstructor {G : Type} (constructCode constructPath : String → String → Except String G)
    (useCode : Bool) (args : String × String) : Option G :=
  match (if useCode then constructCode args.1 args.2 else constructPath args.1 args.2) with
  | .ok g => some g
  | .error _ => none

/-- Result collection of `construct_graphs_mp`: an order-preserving list or a
dict keyed by the input identifier. -/
inductive BatchOut (G : Type) where
  | asList (l : List (Option G))
  | asDict (d : List (String × Option G))
  deriving DecidableEq

/-- Python dict built from key-value pairs in order, later pairs overwriting. -/
def pyDict {α : Type _} (ps : List (String × α)) : List (String × α) :=
  ps.foldl (fun d p => setA d p.1 p.2) []

/-- The task list `[(pdb, chain_selections[i]) for i, pdb in enumerate(pdbs)]`:
an out-of-range chain-selection index raises `IndexError` at batch level. -/
def buildTasks (chains : List String) : List String → Nat → Except PyErr (List (String × String))
  | [], _ => .ok []
  | p :: ps, i =>
      match chains.get? i with
      | some c =>
          match buildTasks chains ps (i + 1) with
          | .ok rest => .ok ((p, c) :: rest)
          | .error err => .error err
      | none => .error .indexError

/-- The attribute accesses of the `out_path` persistence comprehension
(graphs.py 742-748): each result is asked for `g.graph["name"]` in order; on
the `None` placeholder left by a failed task this raises `AttributeError`
(`NoneType` has no attribute `graph`), while a constructed graph answers (its
metadata always carries a name).  The file write itself is an I/O effect
outside the returned value. -/
def persistNames {G : Type} : List (Option G) → Except PyErr Unit
  | [] => .ok ()
  | none :: _ => .error .attributeError
  | some _ :: rest => persistNames rest

/-- `construct_graphs_mp` (graphs.py 687-753): assert that codes or paths were
given; let a path list overwrite a code list; default the chain selections to
`"all"` per item; map the error-catching constructor over the tasks in input
order; when an output path is supplied, run the persistence comprehension over
the results (which raises on any `None` placeholder); return a list or a dict
keyed by input identifier.  `process_map` is modelled as an order-preserving
map. -/
def constructGraphsMP {G : Type} (constructCode constructPath : String → String → Except String G)
    (pdbCodeIt pdbPathIt : Option (List String)) (chainSelections : Option (List String))
    (outPath : Option String) (returnDict : Bool) : Except PyErr (BatchOut G) :=
  match pdbCodeIt, pdbPathIt with
  | none, none => .error .assertionError
  | codes, paths =>
      let pu : List String × Bool :=
        match paths with
        | some ps => (ps, false)
        | none => (codes.getD [], true)
      let chains := chainSelections.getD (List.replicate pu.1.length "all")
      match buildTasks chains pu.1 0 with
      | .error err => .error err
      | .ok tasks =>
          let graphs := tasks.map (mpGraphConstructor constructCode constructPath pu.2)
          match outPath with
          | some _ =>
              match persistNames graphs with
              | .error e => .error e
              | .ok _ =>
                  .ok (if returnDict then .asDict (pyDict (pu.1.zip graphs))
                       else .asList graphs)
          | none =>
              .ok (if returnDict then .asDict (pyDict (pu.1.zip graphs))
                   else .asList graphs)

theorem mpGraphConstructor_path {G : Type}
    (constructCode constructPath : String → String → Except String G) (t : String × String) :
    mpGraphConstructor constructCode constructPath false t = (constructPath t.1 t.2).toOption := by
  unfold mpGraphConstructor
  cases constructPath t.1 t.2 <;> rfl

theorem buildTasks_ok (chains : List String) : ∀ (ps : List String) (i : Nat),
    i + ps.length ≤ chains.length →
    buildTasks chains ps i = .ok (ps.zip (chains.drop i)) := by
  intro ps
  induction ps with
  | nil =>
      intro i _
      rfl
  | cons p ps ih =>
      intro i hlen
      have hi : i < chains.length := by
        simp only [List.length_cons] at hlen
        omega
      have hget : chains.get? i = some (chains.get ⟨i, hi⟩) := List.get?_eq_get hi
      have hdrop : chains.drop i = chains.get ⟨i, hi⟩ :: chains.drop (i + 1) :=
        List.drop_eq_get_cons hi
      have hrec : buildTasks chains ps (i + 1) = .ok (ps.zip (chains.drop (i + 1))) := by
        apply ih
        simp only [List.length_cons] at hlen
        omega
      rw [buildTasks, hget, hrec, hdrop]
      rfl

theorem persistNames_error_of_mem {G : Type} :
    ∀ l : List (Option G), none ∈ l → persistNames l = .error .attributeError := by
  intro l
  induction l with
  | nil =>
      intro h
      cases h
  | cons x rest ih =>
      intro h
      cases x with
      | none => rfl
      | some g =>
          rw [persistNames]
          rcases List.mem_cons.mp h with hx | hmem
          · cases hx
          · exact ih hmem

/-- Claim C3 (corrected): batch failure isolation holds only without an output
directory.  For a batch of paths with a well-formed chain-selection list and
no output path — its default — the batch call succeeds, returns one result
slot per input in order, places the null placeholder exactly where the
single-item constructor failed, and every slot is exactly the outcome of its
own task; supplying neither codes nor paths raises the batch-level assertion;
but with an output path supplied, the persistence comprehension evaluates
`g.graph` on the null placeholder of the failing item and the batch call
raises `AttributeError`. -/
theorem batch_failure_isolation {G : Type}
    (constructCode constructPath : String → String → Except String G)
    (paths : List String) (chains : Option (List String))
    (hch : paths.length ≤ (chains.getD (List.replicate paths.length "all")).length)
    (j : Nat) (pj cj : String) (err : String)
    (htask : (paths.zip (chains.getD (List.replicate paths.length "all"))).get? j =
      some (pj, cj))
    (hfail : constructPath pj cj = .error err) :
    (∃ res, constructGraphsMP constructCode constructPath none (some paths) chains
        none false = .ok (.asList res) ∧
      res.length = paths.length ∧
      res.get? j = some none ∧
      ∀ i p c, (paths.zip (chains.getD (List.replicate paths.length "all"))).get? i =
          some (p, c) → res.get? i = some ((constructPath p c).toOption)) ∧
    (∀ chs op rd, constructGraphsMP constructCode constructPath none none chs op rd =
      .error .assertionError) ∧
    (∀ op : String, constructGraphsMP constructCode constructPath none (some paths)
      chains (some op) false = .error .attributeError) := by
  have hbt : buildTasks (chains.getD (List.replicate paths.length "all")) paths 0 =
      .ok (paths.zip (chains.getD (List.replicate paths.length "all"))) := by
    have h0 := buildTasks_ok (chains.getD (List.replicate paths.length "all")) paths 0
      (by simpa using hch)
    simpa using h0
  have hjnone : ((paths.zip (chains.getD (List.replicate paths.length "all"))).map
      (mpGraphConstructor constructCode constructPath false)).get? j = some none := by
    rw [List.get?_map, htask]
    simp [mpGraphConstructor_path, hfail, Except.toOption]
  refine ⟨?_, ?_, ?_⟩
  · refine ⟨(paths.zip (chains.getD (List.replicate paths.length "all"))).map
      (mpGraphConstructor constructCode constructPath false), ?_, ?_, hjnone, ?_⟩
    · show (match buildTasks (chains.getD (List.replicate paths.length "all")) paths 0 with
        | .error err => (.error err : Except PyErr (BatchOut G))
        | .ok tasks => .ok (.asList
            (tasks.map (mpGraphConstructor constructCode constructPath false)))) = _
      rw [hbt]
    · rw [List.length_map, List.length_zip]
      omega
    · intro i p c hi
      rw [List.get?_map, hi]
      simp [mpGraphConstructor_path]
  · intro chs op rd
    rfl
  · intro op
    have hmem : none ∈ (paths.zip (chains.getD (List.replicate paths.length "all"))).map
        (mpGraphConstructor constructCode constructPath false) :=
      List.get?_mem hjnone
    have hpn := persistNames_error_of_mem _ hmem
    show (match buildTasks (chains.getD (List.replicate paths.length "all")) paths 0 with
      | .error err => (.error err : Except PyErr (BatchOut G))
      | .ok tasks =>
          match persistNames (tasks.map (mpGraphConstructor constructCode constructPath false)) with
          | .error e => .error e
          | .ok _ => .ok (.asList
              (tasks.map (mpGraphConstructor constructCode constructPath false)))) = _
    rw [hbt]
    simp only []
    rw [hpn]

/-- Batch constructor that always fails: stands in for code-based construction
in the witness. -/
def bcCode : String → String → Except String Nat := fun _ _ => .error "unused"

/-- Batch constructor failing exactly on the input `bad`: stands in for
path-based construction in the witness. -/
def bcPath : String → String → Except String Nat :=
  fun p _ => if p = "bad" then .error "boom" else .ok 7

/-- Witness for C3 (amended) at a concrete three-item batch whose middle item
fails: without an output path the call returns ok, three slots in order, null
exactly at position 1; with an output path it raises `AttributeError`. -/
theorem batch_failure_isolation_witness :
    ∃ res, constructGraphsMP bcCode bcPath none (some ["good", "bad", "fine"]) none
        none false = .ok (.asList res) ∧
      res.length = 3 ∧
      res.get? 1 = some none ∧
      res.get? 0 = some (some 7) ∧
      res.get? 2 = some (some 7) ∧
      (∀ chs op rd, constructGraphsMP bcCode bcPath none none chs op rd =
        .error .assertionError) ∧
      constructGraphsMP bcCode bcPath none (some ["good", "bad", "fine"]) none
        (some "out") false = .error .attributeError := by
  obtain ⟨⟨res, hok, hlen, hj, hall⟩, herr, hop⟩ :=
    batch_failure_isolation bcCode bcPath ["good", "bad", "fine"] none (by decide)
      1 "bad" "all" "boom" (by decide) (by decide)
  refine ⟨res, hok, hlen, hj, ?_, ?_, herr, hop "out"⟩
  · rw [hall 0 "good" "all" (by decide)]
    decide
  · rw [hall 2 "fine" "all" (by decide)]
    decide

/-- Counterexample to claim C3 as stated: with an output path supplied and the
middle item failing, the batch call does raise for an individual failure —
the persistence comprehension hits the null placeholder — instead of
returning a result list with a null slot. -/
theorem batch_failure_isolation_cex :
    constructGraphsMP bcCode bcPath none (some ["good", "bad", "fine"]) none
      (some "graphs") false = .error .attributeError := by
  decide

/-- Claim C9: when both an accession list and a path list are supplied, the
batch constructor raises no error for that; the path list silently takes
precedence, the accession list is ignored (the call behaves exactly as if only
the paths were given, each task built from a path, whatever the output-path
option), and with the default chain selections and no output path the call
succeeds. -/
theorem batch_paths_precedence {G : Type}
    (constructCode constructPath : String → String → Except String G)
    (codes paths : List String) (chains : Option (List String))
    (op : Option String) (rd : Bool) :
    constructGraphsMP constructCode constructPath (some codes) (some paths) chains op rd =
      constructGraphsMP constructCode constructPath none (some paths) chains op rd ∧
    ∀ rd2, ∃ out, constructGraphsMP constructCode constructPath
      (some codes) (some paths) none none rd2 = .ok out := by
  constructor
  · rfl
  · intro rd2
    have hbt : buildTasks (List.replicate paths.length "all") paths 0 =
        .ok (paths.zip (List.replicate paths.length "all")) := by
      have h0 := buildTasks_ok (List.replicate paths.length "all") paths 0
        (by simp)
      simpa using h0
    refine ⟨(if rd2 then .asDict (pyDict (paths.zip ((paths.zip
        (List.replicate paths.length "all")).map
        (mpGraphConstructor constructCode constructPath false))))
      else .asList ((paths.zip (List.replicate paths.length "all")).map
        (mpGraphConstructor constructCode constructPath false))), ?_⟩
    show (match buildTasks (List.replicate paths.length "all") paths 0 with
      | .error err => (.error err : Except PyErr (BatchOut G))
      | .ok tasks => .ok (if rd2 then .asDict (pyDict (paths.zip
          (tasks.map (mpGraphConstructor constructCode constructPath false))))
        else .asList (tasks.map (mpGraphConstructor constructCode constructPath false)))) = _
    rw [hbt]

/-! ### Record tables: the `pandas` dataframe of atomic records -/

/-- One row of the atomic record table (the `ATOM` dataframe of
`read_pdb_to_dataframe`).  Coordinates are exact rationals standing in for the
floating-point columns; a missing value (`NaN`) is `none`. -/
structure AtomRow where
  chain_id : String
  residue_name : String
  residue_number : Int
  insertion : String := ""
  alt_loc : String := ""
  atom_name : String
  element_symbol : String := ""
  x_coord : Option ℚ := none
  y_coord : Option ℚ := none
  z_coord : Option ℚ := none
  b_factor : Option ℚ := none
  node_id : String := ""
  deriving DecidableEq

/-- Modelled from the spec: `filter_dataframe` (graphein.protein.utils, not
under src/) keeps exactly the rows whose value in the given column is (when
`boolean` is true), respectively is not (when `boolean` is false), among the
listed values. -/
def filterDataframe (rows : List AtomRow) (col : AtomRow → String)
    (vals : List String) (boolean : Bool) : List AtomRow :=
  rows.filter (fun r => decide (col r ∈ vals) == boolean)

/-- `deprotonate_structure` (graphs.py 103-116): drop rows whose atom name is
`H`. -/
def deprotonateStructure (rows : List AtomRow) : List AtomRow :=
  filterDataframe rows (fun r => r.atom_name) ["H"] false

/-- `subset_structure_to_atom_type` (graphs.py 140-153): keep only rows whose
atom name equals the granularity token. -/
def subsetStructureToAtomType (rows : List AtomRow) (granularity : String) : List AtomRow :=
  filterDataframe rows (fun r => r.atom_name) [granularity] true

/-- First-occurrence deduplication, generic worker: keep an element unless its
key was already seen. -/
def keepFirstByAux {α κ : Type _} [DecidableEq κ] (f : α → κ) :
    List α → List κ → List α
  | [], _ => []
  | x :: xs, seen =>
      if f x ∈ seen then keepFirstByAux f xs seen
      else x :: keepFirstByAux f xs (f x :: seen)

/-- First-occurrence deduplication by a key, as `pandas.duplicated(keep="first")`
marks all later rows with an already-seen key. -/
def keepFirstBy {α κ : Type _} [DecidableEq κ] (f : α → κ) (l : List α) : List α :=
  keepFirstByAux f l []

theorem keepFirstByAux_congr {α κ : Type _} [DecidableEq κ] (f : α → κ) :
    ∀ (l : List α) (seen seen2 : List κ), (∀ k, k ∈ seen ↔ k ∈ seen2) →
    keepFirstByAux f l seen = keepFirstByAux f l seen2 := by
  intro l
  induction l with
  | nil =>
      intro seen seen2 _
      rfl
  | cons x xs ih =>
      intro seen seen2 hiff
      by_cases hmem : f x ∈ seen
      · rw [keepFirstByAux, keepFirstByAux, if_pos hmem, if_pos ((hiff (f x)).mp hmem),
          ih seen seen2 hiff]
      · have hmem2 : f x ∉ seen2 := fun h => hmem ((hiff (f x)).mpr h)
        rw [keepFirstByAux, keepFirstByAux, if_neg hmem, if_neg hmem2]
        rw [ih (f x :: seen) (f x :: seen2) (by intro k; simp [hiff k])]

theorem keepFirstByAux_cons_seen {α κ : Type _} [DecidableEq κ] (f : α → κ) :
    ∀ (l : List α) (k : κ) (seen : List κ),
    keepFirstByAux f l (k :: seen) =
      keepFirstByAux f (l.filter (fun y => f y ≠ k)) seen := by
  intro l
  induction l with
  | nil =>
      intro k seen
      rfl
  | cons x xs ih =>
      intro k seen
      by_cases hk : f x = k
      · rw [List.filter_cons_of_neg (by simp [hk]), keepFirstByAux,
          if_pos (by simp [hk]), ih]
      · rw [List.filter_cons_of_pos (by simp [hk])]
        by_cases hmem : f x ∈ seen
        · rw [keepFirstByAux, keepFirstByAux, if_pos (by simp [hk, hmem]),
            if_pos hmem, ih]
        · rw [keepFirstByAux, keepFirstByAux, if_neg (by simp [hk, hmem]),
            if_neg hmem]
          rw [keepFirstByAux_congr f xs (f x :: k :: seen) (k :: f x :: seen)
            (by intro k2; simp; tauto)]
          rw [ih k (f x :: seen)]

theorem keepFirstBy_nil {α κ : Type _} [DecidableEq κ] (f : α → κ) :
    keepFirstBy f ([] : List α) = [] := rfl

theorem keepFirstBy_cons {α κ : Type _} [DecidableEq κ] (f : α → κ) (x : α) (xs : List α) :
    keepFirstBy f (x :: xs) = x :: keepFirstBy f (xs.filter (fun y => f y ≠ f x)) := by
  unfold keepFirstBy
  rw [keepFirstByAux, if_neg (by simp), keepFirstByAux_cons_seen]

/-- `remove_insertions` (graphs.py 156-184) with the default `keep="first"`:
drop later duplicates of a (chain, residue number, atom name) key, keep only
empty insertion codes, and keep only empty or `A` alternate locations. -/
def removeInsertions (rows : List AtomRow) : List AtomRow :=
  let df := keepFirstBy (fun r => (r.chain_id, r.residue_number, r.atom_name)) rows
  let df := filterDataframe df (fun r => r.insertion) [""] true
  filterDataframe df (fun r => r.alt_loc) ["", "A"] true

/-- `select_chains` (graphs.py 323-349): restrict to the chains named by the
characters of the selection string, unless it is `all`. -/
def selectChains (rows : List AtomRow) (chainSelection : String) : List AtomRow :=
  if chainSelection ≠ "all" then
    filterDataframe rows (fun r => r.chain_id)
      (chainSelection.toList.map (fun c => String.mk [c])) true
  else rows

/-- Insertion of an integer into a sorted list, for the sorted group keys of
`pandas.groupby`. -/
def insertSorted (n : Int) : List Int → List Int
  | [] => [n]
  | m :: ms => if n ≤ m then n :: m :: ms else m :: insertSorted n ms

/-- Insertion sort of integers. -/
def sortInts : List Int → List Int
  | [] => []
  | n :: ns => insertSorted n (sortInts ns)

/-- Mean of a coordinate column, skipping missing values as `pandas.mean`
does; an all-missing column stays missing. -/
def colMean (vs : List (Option ℚ)) : Option ℚ :=
  let xs := vs.filterMap id
  if xs.isEmpty then none else some (xs.sum / (xs.length : ℚ))

/-- One row of the centroid table produced by `calculate_centroid_positions`. -/
structure CentroidRow where
  residue_number : Int
  x_coord : Option ℚ
  y_coord : Option ℚ
  z_coord : Option ℚ
  deriving DecidableEq

/-- `calculate_centroid_positions` (graphs.py 468-489):
`atoms.groupby("residue_number").mean()[[x, y, z]].reset_index()` — group the
table by residue number alone (chains are not part of the key), average each
coordinate column per group, and list the groups by ascending residue number
as `groupby` sorts its keys. -/
def calculateCentroidPositions (atoms : List AtomRow) : List CentroidRow :=
  (sortInts (keepFirstBy id (atoms.map (fun r => r.residue_number)))).map
    (fun n =>
      let grp := atoms.filter (fun r => r.residue_number = n)
      { residue_number := n,
        x_coord := colMean (grp.map (fun r => r.x_coord)),
        y_coord := colMean (grp.map (fun r => r.y_coord)),
        z_coord := colMean (grp.map (fun r => r.z_coord)) })

/-- `convert_structure_to_centroids` (graphs.py 119-137): take the `CA` rows
of the table (`reset_index`), then assign the centroid coordinate columns into
them by positional index alignment — row `i` of the `CA` table receives row
`i` of the centroid table, and rows beyond the centroid count receive `NaN`. -/
def convertStructureToCentroids (df : List AtomRow) : List AtomRow :=
  let centroids := calculateCentroidPositions df
  let ca := df.filter (fun r => r.atom_name = "CA")
  ca.enum.map (fun p =>
    match centroids.get? p.1 with
    | some c => { p.2 with x_coord := c.x_coord, y_coord := c.y_coord, z_coord := c.z_coord }
    | none => { p.2 with x_coord := none, y_coord := none, z_coord := none })

/-- `process_dataframe` (graphs.py 201-291) along the path taken by
`construct_graph`: no custom processing functions, `deprotonate` true and
`keep_hets` empty (their defaults), so deprotonation, then the granularity
switch (`atom` keeps all rows, `centroids` converts, any other token subsets
to that atom name), then insertion removal unless insertions are kept, then
chain selection. -/
def processDataframe (atoms : List AtomRow) (granularity chainSelection : String)
    (insertions : Bool) : List AtomRow :=
  let atoms := deprotonateStructure atoms
  let atoms :=
    if granularity = "atom" then atoms
    else if granularity = "centroids" then convertStructureToCentroids atoms
    else subsetStructureToAtomType atoms granularity
  let pdf := if insertions then atoms else removeInsertions atoms
  selectChains pdf chainSelection

/-- `RESI_THREE_TO_1` (resi_atoms.py 287-372): the residue three-letter-name
to one-letter-code mapping, entries in source order. -/
def RESI_THREE_TO_1 : List (String × String) := [
    ("ALA", "A"), ("ASX", "B"), ("CYS", "C"), ("ASP", "D"),
    ("GLU", "E"), ("PHE", "F"), ("GLY", "G"), ("HIS", "H"),
    ("ILE", "I"), ("LYS", "K"), ("LEU", "L"), ("MET", "M"),
    ("ASN", "N"), ("PRO", "P"), ("GLN", "Q"), ("ARG", "R"),
    ("SER", "S"), ("THR", "T"), ("VAL", "V"), ("TRP", "W"),
    ("TYR", "Y"), ("GLX", "Z"), ("CSD", "C"), ("HYP", "P"),
    ("BMT", "T"), ("3HP", "X"), ("4HP", "X"), ("5HP", "Q"),
    ("ACE", "X"), ("ABA", "A"), ("AIB", "A"), ("NH2", "X"),
    ("CBX", "X"), ("CSW", "C"), ("OCS", "C"), ("DAL", "A"),
    ("DAR", "R"), ("DSG", "N"), ("DSP", "D"), ("DCY", "C"),
    ("CRO", "TYG"), ("DGL", "E"), ("DGN", "Q"), ("DHI", "H"),
    ("DIL", "I"), ("DIV", "V"), ("DLE", "L"), ("DLY", "K"),
    ("DPN", "F"), ("DPR", "P"), ("DSN", "S"), ("DTH", "T"),
    ("DTR", "W"), ("DTY", "Y"), ("DVA", "V"), ("FOR", "X"),
    ("CGU", "E"), ("IVA", "X"), ("KCX", "K"), ("LLP", "K"),
    ("CXM", "M"), ("FME", "M"), ("MLE", "L"), ("MVA", "V"),
    ("NLE", "L"), ("PTR", "Y"), ("ORN", "A"), ("SEP", "S"),
    ("SEC", "U"), ("TPO", "T"), ("PCA", "Q"), ("PVL", "X"),
    ("PYL", "O"), ("SAR", "G"), ("CEA", "C"), ("CSO", "C"),
    ("CSS", "C"), ("CSX", "C"), ("CME", "C"), ("TYS", "Y"),
    ("BOC", "X"), ("TPQ", "Y"), ("STY", "Y"), ("UNK", "X")]

/-- Modelled from the spec: `three_to_one_with_mods` (graphein.protein.utils,
not under src/) maps a residue three-letter name to its one-letter code,
falling back to the modified/non-standard mapping table; a name outside the
table maps to the placeholder code `X`. -/
def threeToOneWithMods (r : String) : String :=
  (lookupA RESI_THREE_TO_1 r).getD "X"

/-- Node-id assignment of `read_pdb_to_dataframe` (graphs.py 84-97):
`chain:residue_name:residue_number`, suffixed with `:atom_name` at atomic
granularity. -/
def mkNodeId (r : AtomRow) (granularity : String) : String :=
  let base := r.chain_id ++ ":" ++ r.residue_name ++ ":" ++ toString r.residue_number
  if granularity = "atom" then base ++ ":" ++ r.atom_name else base

/-- The dataframe part of `read_pdb_to_dataframe` after the fetched table is
available: assign the node-id column.  Fetching itself is the out-of-scope
record-fetching collaborator, so the fetched rows are a parameter. -/
def readPdbAssignNodeIds (atoms : List AtomRow) (granularity : String) : List AtomRow :=
  atoms.map (fun r => { r with node_id := mkNodeId r granularity })

/-- Python truthiness of an optional string argument: `None` and the empty
string are falsy. -/
def pyTruthy : Option String → Bool
  | none => false
  | some s => s ≠ ""

/-- The structure-source assertion shared by `construct_graph` (569-572),
`read_pdb_to_dataframe` (73-76) and `initialise_graph_with_metadata`
(380-383): exactly one of the accession and the file path is truthy. -/
def srcExclusivityOk (code path : Option String) : Bool :=
  (pyTruthy code && !pyTruthy path) || (!pyTruthy code && pyTruthy path)

/-- Modelled from the spec: `get_protein_name_from_filename`
(graphein.protein.utils, not under src/) derives a stable graph name usable as
a file stem from the path; the path itself stands in for the stem here. -/
def getProteinNameFromFilename (p : String) : String := p

/-- The graph object assembled by `initialise_graph_with_metadata` and
`add_nodes_to_graph`: the graph-level metadata and the node-id set.  The
record-table caches, coordinate cache and per-node attribute dictionaries
ride along in the source but are orthogonal to the metadata studied here. -/
structure BuiltGraph where
  name : Option String
  pdb_code : Option String
  pdb_path : Option String
  chain_ids : List String
  sequences : List (String × String)
  node_type : String
  nodes : List String
  deriving DecidableEq

/-- Per-chain sequence string of `initialise_graph_with_metadata` (407-412):
map each residue name of the chain to its one-letter code and concatenate in
table order. -/
def sequenceString (df : List AtomRow) (c : String) : String :=
  ((df.filter (fun r => r.chain_id = c)).map
    (fun r => threeToOneWithMods r.residue_name)).foldl (fun a b => a ++ b) ""

/-- `initialise_graph_with_metadata` (graphs.py 352-413): assert the
structure-source exclusivity, resolve the graph name, record the distinct
chain ids of the processed table in first-occurrence order, and build one
sequence string per chain. -/
def initialiseGraphWithMetadata (protein_df : List AtomRow) (granularity : String)
    (name pdb_code pdb_path : Option String) : Except PyErr BuiltGraph :=
  if !srcExclusivityOk pdb_code pdb_path then .error .assertionError
  else
    let nm : Option String :=
      if pyTruthy name then name
      else if pyTruthy pdb_path then some (getProteinNameFromFilename (pdb_path.getD ""))
      else pdb_code
    let chainIds := keepFirstBy id (protein_df.map (fun r => r.chain_id))
    .ok { name := nm, pdb_code := pdb_code, pdb_path := pdb_path,
          chain_ids := chainIds,
          sequences := chainIds.map (fun c => (c, sequenceString protein_df c)),
          node_type := granularity,
          nodes := [] }

/-- `add_nodes_to_graph` (graphs.py 416-465): add one node per row of the
stored processed table, keyed by the node-id column (NetworkX keeps the first
occurrence of a duplicate id). -/
def addNodesToGraph (g : BuiltGraph) (protein_df : List AtomRow) : BuiltGraph :=
  { g with nodes := keepFirstBy id (protein_df.map (fun r => r.node_id)) }

/-- `construct_graph` (graphs.py 525-652) up to edge construction: assert the
structure-source exclusivity, assign node ids as `read_pdb_to_dataframe` does
to the fetched table, reduce the table at the configured granularity, then
initialise the graph with metadata and add its nodes.  Edge construction and
the pluggable annotation functions mutate edge and attribute data only and
are out-of-scope collaborators. -/
def constructGraph (atoms : List AtomRow) (name pdb_path pdb_code : Option String)
    (chainSelection granularity : String) (insertions : Bool) :
    Except PyErr BuiltGraph :=
  if !srcExclusivityOk pdb_code pdb_path then .error .assertionError
  else
    let raw := readPdbAssignNodeIds atoms granularity
    let protein_df := processDataframe raw granularity chainSelection insertions
    match initialiseGraphWithMetadata protein_df granularity name pdb_code pdb_path with
    | .error e => .error e
    | .ok g => .ok (addNodesToGraph g protein_df)

/-- Claim-side notion of a supplied structure source: a non-empty identifier
string was given. -/
def suppliedNonempty (o : Option String) : Prop := ∃ s, o = some s ∧ s ≠ ""

/-- Exactly one of accession and file path supplied. -/
def exactlyOneSupplied (code path : Option String) : Prop :=
  (suppliedNonempty code ∧ ¬ suppliedNonempty path) ∨
    (¬ suppliedNonempty code ∧ suppliedNonempty path)

theorem pyTruthy_iff (o : Option String) : pyTruthy o = true ↔ suppliedNonempty o := by
  cases o with
  | none => simp [pyTruthy, suppliedNonempty]
  | some s => simp [pyTruthy, suppliedNonempty]

theorem srcExclusivityOk_iff (code path : Option String) :
    srcExclusivityOk code path = true ↔ exactlyOneSupplied code path := by
  unfold srcExclusivityOk exactlyOneSupplied
  rw [← pyTruthy_iff, ← pyTruthy_iff]
  cases pyTruthy code <;> cases pyTruthy path <;> simp

/-- Claim C7: graph construction raises the configuration (assertion) error
exactly when not exactly one of accession and file path is supplied (both
truthy or neither truthy), and succeeds exactly when exactly one is supplied;
the error is the immediate result of the call. -/
theorem construct_graph_source_exclusivity
    (atoms : List AtomRow) (name pdb_path pdb_code : Option String)
    (chainSelection granularity : String) (insertions : Bool) :
    ((constructGraph atoms name pdb_path pdb_code chainSelection granularity insertions
        = .error .assertionError) ↔ ¬ exactlyOneSupplied pdb_code pdb_path) ∧
    ((∃ g, constructGraph atoms name pdb_path pdb_code chainSelection granularity insertions
        = .ok g) ↔ exactlyOneSupplied pdb_code pdb_path) := by
  cases hok : srcExclusivityOk pdb_code pdb_path with
  | false =>
      have hnot : ¬ exactlyOneSupplied pdb_code pdb_path := by
        rw [← srcExclusivityOk_iff, hok]
        simp
      constructor
      · simp only [constructGraph, hok, Bool.not_false, if_true]
        simpa using hnot
      · constructor
        · intro ⟨g, hg⟩
          simp only [constructGraph, hok, Bool.not_false, if_true] at hg
          exact absurd hg (by simp)
        · intro h
          exact absurd h hnot
  | true =>
      have hyes : exactlyOneSupplied pdb_code pdb_path := (srcExclusivityOk_iff _ _).mp hok
      constructor
      · simp only [constructGraph, initialiseGraphWithMetadata, hok, Bool.not_true, if_false]
        simpa using hyes
      · constructor
        · intro _
          exact hyes
        · intro _
          simp only [constructGraph, initialiseGraphWithMetadata, hok, Bool.not_true, if_false]
          exact ⟨_, rfl⟩

/-! ### Claim C4: centroid reduction at a two-chain table -/

/-- Two chains, each one residue with residue number 1: chain A has atoms N at
x = 0 and CA at x = 2, chain B has its CA at x = 10. -/
def centroidCexTable : List AtomRow := [
  { chain_id := "A", residue_name := "GLY", residue_number := 1, atom_name := "N",
    x_coord := some 0, y_coord := some 0, z_coord := some 0 },
  { chain_id := "A", residue_name := "GLY", residue_number := 1, atom_name := "CA",
    x_coord := some 2, y_coord := some 0, z_coord := some 0 },
  { chain_id := "B", residue_name := "ALA", residue_number := 1, atom_name := "CA",
    x_coord := some 10, y_coord := some 0, z_coord := some 0 }]

/-- Claim C4, the code evaluated at the failing input: grouping by residue
number alone merges the two chains, so the single centroid row averages all
three atoms (x = 4) and is assigned to the chain-A row by index alignment,
while the chain-B row receives a missing coordinate; the per-residue means
demanded by the claim are x = 1 for A:1 and x = 10 for B:1. -/
theorem centroid_chain_merge_bug :
    ((convertStructureToCentroids centroidCexTable).map
      (fun r => (r.chain_id, r.x_coord))) = [("A", some 4), ("B", none)] ∧
    colMean ((centroidCexTable.filter
      (fun r => r.chain_id = "A" ∧ r.residue_number = 1)).map
        (fun r => r.x_coord)) = some 1 ∧
    colMean ((centroidCexTable.filter
      (fun r => r.chain_id = "B" ∧ r.residue_number = 1)).map
        (fun r => r.x_coord)) = some 10 := by
  refine ⟨?_, ?_, ?_⟩
  · have h1 : ((convertStructureToCentroids centroidCexTable).map
        (fun r => (r.chain_id, r.x_coord))) =
        [("A", colMean [some 0, some 2, some 10]), ("B", none)] := rfl
    have h2 : colMean [some (0 : ℚ), some 2, some 10] = some 4 := by
      simp [colMean, List.filterMap_cons]
      norm_num
    rw [h1, h2]
  · have h1 : ((centroidCexTable.filter
        (fun r => r.chain_id = "A" ∧ r.residue_number = 1)).map
          (fun r => r.x_coord)) = [some 0, some 2] := rfl
    rw [h1]
    simp [colMean, List.filterMap_cons]
  · have h1 : ((centroidCexTable.filter
        (fun r => r.chain_id = "B" ∧ r.residue_number = 1)).map
          (fun r => r.x_coord)) = [some 10] := rfl
    rw [h1]
    simp [colMean, List.filterMap_cons]

/-! ### List utilities for the sequence round-trip -/

theorem filter_map_eq {α β : Type _} (f : α → β) (p : β → Bool) :
    ∀ l : List α, (l.map f).filter p = (l.filter (fun x => p (f x))).map f := by
  intro l
  induction l with
  | nil => rfl
  | cons x xs ih =>
      cases hp : p (f x) with
      | true => simp [List.filter_cons, hp, ih]
      | false => simp [List.filter_cons, hp, ih]

theorem keepFirstBy_map {α β κ : Type _} [DecidableEq κ] (f : α → β) (g : β → κ) :
    ∀ (n : Nat) (l : List α), l.length ≤ n →
    keepFirstBy g (l.map f) = (keepFirstBy (fun x => g (f x)) l).map f := by
  intro n
  induction n with
  | zero =>
      intro l hl
      rw [List.length_eq_zero.mp (Nat.le_zero.mp hl)]
      rfl
  | succ n ih =>
      intro l hl
      cases l with
      | nil => rfl
      | cons x xs =>
          rw [List.map_cons, keepFirstBy_cons, keepFirstBy_cons, List.map_cons]
          rw [filter_map_eq f (fun y => decide (g y ≠ g (f x))) xs]
          rw [ih (xs.filter (fun y => decide (g (f y) ≠ g (f x))))
            (le_trans (List.length_filter_le _ _) (by simpa using hl))]

theorem keepFirstBy_eq_self {α κ : Type _} [DecidableEq κ] (f : α → κ) :
    ∀ (n : Nat) (l : List α), l.length ≤ n → (l.map f).Nodup →
    keepFirstBy f l = l := by
  intro n
  induction n with
  | zero =>
      intro l hl _
      rw [List.length_eq_zero.mp (Nat.le_zero.mp hl)]
      rfl
  | succ n ih =>
      intro l hl hnd
      cases l with
      | nil => rfl
      | cons x xs =>
          rw [List.map_cons, List.nodup_cons] at hnd
          have hfilter : xs.filter (fun y => decide (f y ≠ f x)) = xs := by
            rw [List.filter_eq_self]
            intro y hy
            simp only [decide_eq_true_eq]
            intro hEq
            exact hnd.1 (hEq ▸ List.mem_map_of_mem f hy)
          rw [keepFirstBy_cons, hfilter, ih xs (by simpa using hl) hnd.2]

theorem mem_keepFirstBy_id {κ : Type _} [DecidableEq κ] :
    ∀ (n : Nat) (l : List κ), l.length ≤ n →
    ∀ c : κ, c ∈ keepFirstBy id l ↔ c ∈ l := by
  intro n
  induction n with
  | zero =>
      intro l hl c
      rw [List.length_eq_zero.mp (Nat.le_zero.mp hl)]
      exact Iff.rfl
  | succ n ih =>
      intro l hl c
      cases l with
      | nil => exact Iff.rfl
      | cons x xs =>
          rw [keepFirstBy_cons]
          by_cases hc : c = x
          · subst hc
            simp
          · have hmem := ih (xs.filter (fun y => decide (id y ≠ id x)))
              (le_trans (List.length_filter_le _ _) (by simpa using hl)) c
            constructor
            · intro h
              rcases List.mem_cons.mp h with h1 | h1
              · exact List.mem_cons.mpr (Or.inl h1)
              · exact List.mem_cons.mpr (Or.inr (List.mem_filter.mp (hmem.mp h1)).1)
            · intro h
              rcases List.mem_cons.mp h with h1 | h1
              · exact List.mem_cons.mpr (Or.inl h1)
              · refine List.mem_cons.mpr (Or.inr ?_)
                exact hmem.mpr (List.mem_filter.mpr ⟨h1, by simpa [id] using hc⟩)

theorem nodup_map_of_countP {α κ : Type _} [DecidableEq κ] (f : α → κ) :
    ∀ l : List α, (∀ x ∈ l, l.countP (fun y => decide (f y = f x)) ≤ 1) →
    (l.map f).Nodup := by
  intro l
  induction l with
  | nil => simp
  | cons x xs ih =>
      intro hcnt
      rw [List.map_cons, List.nodup_cons]
      constructor
      · intro hmem
        obtain ⟨y, hy, hfy⟩ := List.mem_map.mp hmem
        have h1 := hcnt x (by simp)
        rw [List.countP_cons_of_pos _ _ (by simp)] at h1
        have h0 : xs.countP (fun y => decide (f y = f x)) = 0 := by omega
        rw [List.countP_eq_zero] at h0
        exact absurd (by simpa using hfy) (by simpa using h0 y hy)
      · apply ih
        intro y hy
        have h1 := hcnt y (by simp [hy])
        calc xs.countP (fun z => decide (f z = f y)) ≤
            (x :: xs).countP (fun z => decide (f z = f y)) := by
              rw [List.countP_cons]
              omega
          _ ≤ 1 := h1

theorem lookupA_pair_map {α : Type _} (f : String → α) :
    ∀ (l : List String) (c : String),
    lookupA (l.map (fun c => (c, f c))) c = if c ∈ l then some (f c) else none := by
  intro l
  induction l with
  | nil =>
      intro c
      simp
  | cons x xs ih =>
      intro c
      by_cases hc : x = c
      · subst hc
        simp
      · have hcx : ¬ c = x := fun h => hc h.symm
        simp only [List.map_cons, lookupA_cons, hc, if_false, ih c, List.mem_cons]
        by_cases hm : c ∈ xs
        · simp [hm]
        · simp [hm, hcx]

theorem map_proj_enumFrom {α β : Type _} (g : Nat × α → α) (proj : α → β)
    (hg : ∀ n x, proj (g (n, x)) = proj x) :
    ∀ (l : List α) (n : Nat), ((List.enumFrom n l).map g).map proj = l.map proj := by
  intro l
  induction l with
  | nil =>
      intro n
      rfl
  | cons x xs ih =>
      intro n
      simp only [List.enumFrom, List.map_cons, hg, ih]

theorem dropWhile_map {α κ : Type _} (f : α → κ) (p : κ → Bool) :
    ∀ l : List α, (l.map f).dropWhile p = (l.dropWhile (fun x => p (f x))).map f := by
  intro l
  induction l with
  | nil => rfl
  | cons x xs ih =>
      cases hp : p (f x) with
      | true => simp [List.dropWhile_cons, hp, ih]
      | false => simp [List.dropWhile_cons, hp]

/-! ### Contiguous-runs well-formedness of a keyed list -/

/-- Worker for the contiguity check: walk the key list with the current run
key and the set of closed run keys; a closed key reappearing means the rows of
one key are not contiguous. -/
def runsOkAux {κ : Type _} [DecidableEq κ] : List κ → κ → List κ → Bool
  | [], _, _ => true
  | k :: ks, cur, seen =>
      if k = cur then runsOkAux ks cur seen
      else if k ∈ seen then false
      else runsOkAux ks k (cur :: seen)

/-- Rows with equal keys form contiguous blocks. -/
def runsOkBy {α κ : Type _} [DecidableEq κ] (f : α → κ) (l : List α) : Bool :=
  match l.map f with
  | [] => true
  | k :: ks => runsOkAux ks k []

theorem runsOkAux_mono {κ : Type _} [DecidableEq κ] :
    ∀ (ks : List κ) (cur : κ) (seen seen2 : List κ), (∀ x ∈ seen2, x ∈ seen) →
    runsOkAux ks cur seen = true → runsOkAux ks cur seen2 = true := by
  intro ks
  induction ks with
  | nil =>
      intro cur seen seen2 _ _
      rfl
  | cons k ks ih =>
      intro cur seen seen2 hsub h
      by_cases hk : k = cur
      · rw [runsOkAux, if_pos hk] at h ⊢
        exact ih cur seen seen2 hsub h
      · rw [runsOkAux, if_neg hk] at h ⊢
        by_cases hmem : k ∈ seen
        · rw [if_pos hmem] at h
          exact absurd h (by simp)
        · have hmem2 : k ∉ seen2 := fun h2 => hmem (hsub k h2)
          rw [if_neg hmem] at h
          rw [if_neg hmem2]
          exact ih k (cur :: seen) (cur :: seen2)
            (by intro x hx; rcases List.mem_cons.mp hx with rfl | hx
                · exact List.mem_cons.mpr (Or.inl rfl)
                · exact List.mem_cons.mpr (Or.inr (hsub x hx))) h

theorem runsOkAux_no_return {κ : Type _} [DecidableEq κ] :
    ∀ (ks : List κ) (cur : κ) (seen : List κ), cur ∉ seen →
    runsOkAux ks cur seen = true → ∀ s ∈ seen, s ∉ ks := by
  intro ks
  induction ks with
  | nil =>
      intro cur seen _ _ s _
      simp
  | cons k ks ih =>
      intro cur seen hcur h s hs
      by_cases hk : k = cur
      · subst hk
        rw [runsOkAux, if_pos rfl] at h
        intro hmem
        rcases List.mem_cons.mp hmem with h1 | h1
        · exact hcur (h1 ▸ hs)
        · exact ih k seen hcur h s hs h1
      · rw [runsOkAux, if_neg hk] at h
        by_cases hmem : k ∈ seen
        · rw [if_pos hmem] at h
          exact absurd h (by simp)
        · rw [if_neg hmem] at h
          intro hmem2
          rcases List.mem_cons.mp hmem2 with h1 | h1
          · exact hmem (h1 ▸ hs)
          · exact ih k (cur :: seen) (by
                intro h2
                rcases List.mem_cons.mp h2 with h3 | h3
                · exact hk h3
                · exact hmem h3) h s (List.mem_cons.mpr (Or.inr hs)) h1

theorem runsOkAux_decompose {κ : Type _} [DecidableEq κ] (k : κ) :
    ∀ ks : List κ, runsOkAux ks k [] = true →
    (∀ k2 ∈ ks.dropWhile (fun x => decide (x = k)), k2 ≠ k) ∧
    (∀ (k2 : κ) (tail : List κ), ks.dropWhile (fun x => decide (x = k)) = k2 :: tail →
      runsOkAux tail k2 [] = true) := by
  intro ks
  induction ks with
  | nil =>
      intro _
      exact ⟨by simp, by intro k2 tail h; simp at h⟩
  | cons k2 ks ih =>
      intro h
      by_cases hk : k2 = k
      · subst hk
        rw [runsOkAux, if_pos rfl] at h
        rw [List.dropWhile_cons_of_pos (by simp)]
        exact ih h
      · rw [runsOkAux, if_neg hk, if_neg (by simp)] at h
        rw [List.dropWhile_cons_of_neg (by simp [hk])]
        have hnk : k ∉ ks := runsOkAux_no_return ks k2 [k]
          (by simpa using hk) h k (by simp)
        constructor
        · intro k3 hk3
          rcases List.mem_cons.mp hk3 with h1 | h1
          · exact fun hEq => hk (h1.symm.trans hEq)
          · exact fun hEq => hnk (hEq ▸ h1)
        · intro k3 tail heq
          injection heq with h1 h2
          subst h2
          rw [← h1]
          exact runsOkAux_mono ks k2 [k] [] (by simp) h

theorem runsOkBy_decompose {α κ : Type _} [DecidableEq κ] (f : α → κ) (r : α)
    (rest : List α) (h : runsOkBy f (r :: rest) = true) :
    (∀ y ∈ rest.dropWhile (fun y => decide (f y = f r)), f y ≠ f r) ∧
    runsOkBy f (rest.dropWhile (fun y => decide (f y = f r))) = true := by
  have h0 : runsOkAux (rest.map f) (f r) [] = true := h
  obtain ⟨h1, h2⟩ := runsOkAux_decompose (f r) (rest.map f) h0
  have hdw : (rest.map f).dropWhile (fun x => decide (x = f r)) =
      (rest.dropWhile (fun y => decide (f y = f r))).map f :=
    dropWhile_map f (fun x => decide (x = f r)) rest
  constructor
  · intro y hy
    exact h1 (f y) (by rw [hdw]; exact List.mem_map_of_mem f hy)
  · rw [hdw] at h1 h2
    cases hrest2 : rest.dropWhile (fun y => decide (f y = f r)) with
    | nil => rfl
    | cons r2 tail =>
        show runsOkAux (tail.map f) (f r2) [] = true
        exact h2 (f r2) (tail.map f) (by rw [hrest2]; rfl)

/-- Residue key of a row: chain id and residue number. -/
def rkeyCR (r : AtomRow) : String × Int := (r.chain_id, r.residue_number)

/-- Chain and residue name of a row: the fields feeding the chain list and the
per-chain sequences. -/
def projCN (r : AtomRow) : String × String := (r.chain_id, r.residue_name)

/-- For a table whose residues are contiguous runs, carry exactly one CA row
each, and name their rows consistently, the CA rows list the residues in table
order: both project to the same (chain, residue-name) list. -/
theorem ca_eq_reps : ∀ (n : Nat) (rows : List AtomRow), rows.length ≤ n →
    runsOkBy rkeyCR rows = true →
    (∀ r ∈ rows, rows.countP
      (fun r2 => decide (rkeyCR r2 = rkeyCR r ∧ r2.atom_name = "CA")) = 1) →
    (∀ r ∈ rows, ∀ r2 ∈ rows, rkeyCR r2 = rkeyCR r → r2.residue_name = r.residue_name) →
    (rows.filter (fun r => decide (r.atom_name = "CA"))).map projCN =
      (keepFirstBy rkeyCR rows).map projCN := by
  intro n
  induction n with
  | zero =>
      intro rows hl _ _ _
      rw [List.length_eq_zero.mp (Nat.le_zero.mp hl)]
      rfl
  | succ n ih =>
      intro rows hl hcontig hca hname
      cases rows with
      | nil => rfl
      | cons r rest =>
          obtain ⟨hno, hrec⟩ := runsOkBy_decompose rkeyCR r rest hcontig
          set run := rest.takeWhile (fun y => decide (rkeyCR y = rkeyCR r)) with hrundef
          set rest2 := rest.dropWhile (fun y => decide (rkeyCR y = rkeyCR r)) with hrest2def
          have hsplit : run ++ rest2 = rest := List.takeWhile_append_dropWhile _ _
          have hrows : r :: rest = (r :: run) ++ rest2 := by
            rw [List.cons_append, hsplit]
          have hrunkeys : ∀ y ∈ run, rkeyCR y = rkeyCR r := by
            intro y hy
            simpa using List.mem_takeWhile_imp hy
          have hrunsub : ∀ y ∈ run, y ∈ rest := by
            intro y hy
            rw [← hsplit]
            exact List.mem_append.mpr (Or.inl hy)
          have hrest2sub : ∀ y ∈ rest2, y ∈ rest := by
            intro y hy
            rw [← hsplit]
            exact List.mem_append.mpr (Or.inr hy)
          have hfilter : rest.filter (fun y => decide (rkeyCR y ≠ rkeyCR r)) = rest2 := by
            conv_lhs => rw [← hsplit]
            rw [List.filter_append]
            have h1 : run.filter (fun y => decide (rkeyCR y ≠ rkeyCR r)) = [] := by
              rw [List.filter_eq_nil]
              intro y hy
              simp [hrunkeys y hy]
            have h2 : rest2.filter (fun y => decide (rkeyCR y ≠ rkeyCR r)) = rest2 := by
              rw [List.filter_eq_self]
              intro y hy
              simpa using hno y hy
            rw [h1, h2, List.nil_append]
          have hcount1 : (r :: run).countP
              (fun r2 => decide (rkeyCR r2 = rkeyCR r ∧ r2.atom_name = "CA")) = 1 := by
            have h0 := hca r (by simp)
            rw [hrows, List.countP_append] at h0
            have hz : rest2.countP
                (fun r2 => decide (rkeyCR r2 = rkeyCR r ∧ r2.atom_name = "CA")) = 0 := by
              rw [List.countP_eq_zero]
              intro y hy
              simp only [decide_eq_true_eq, not_and]
              intro hEq
              exact absurd hEq (hno y hy)
            omega
          have hfeq : (r :: run).filter (fun r2 => decide (r2.atom_name = "CA")) =
              (r :: run).filter
                (fun r2 => decide (rkeyCR r2 = rkeyCR r ∧ r2.atom_name = "CA")) := by
            apply List.filter_congr
            intro y hy
            have hk : rkeyCR y = rkeyCR r := by
              rcases List.mem_cons.mp hy with rfl | hy2
              · rfl
              · exact hrunkeys y hy2
            simp [hk]
          have hlen1 : ((r :: run).filter (fun r2 => decide (r2.atom_name = "CA"))).length = 1 := by
            rw [hfeq, ← List.countP_eq_length_filter]
            exact hcount1
          obtain ⟨c0, hc0⟩ := List.length_eq_one.mp hlen1
          have hc0mem : c0 ∈ (r :: run) ∧ c0.atom_name = "CA" := by
            have hmem : c0 ∈ (r :: run).filter (fun r2 => decide (r2.atom_name = "CA")) := by
              rw [hc0]
              simp
            have h2 := List.mem_filter.mp hmem
            exact ⟨h2.1, by simpa using h2.2⟩
          have hc0key : rkeyCR c0 = rkeyCR r := by
            rcases List.mem_cons.mp hc0mem.1 with rfl | h2
            · rfl
            · exact hrunkeys c0 h2
          have hc0rows : c0 ∈ r :: rest := by
            rcases List.mem_cons.mp hc0mem.1 with rfl | h2
            · exact List.mem_cons.mpr (Or.inl rfl)
            · exact List.mem_cons.mpr (Or.inr (hrunsub c0 h2))
          have hc0proj : projCN c0 = projCN r := by
            have hchain : c0.chain_id = r.chain_id := congrArg Prod.fst hc0key
            have hres : c0.residue_name = r.residue_name :=
              hname r (by simp) c0 hc0rows hc0key
            simp [projCN, hchain, hres]
          have hlen2 : rest2.length ≤ n := by
            have h1 : rest.length ≤ n := by simpa using hl
            have h2 : run.length + rest2.length = rest.length := by
              rw [← List.length_append, hsplit]
            omega
          have hca2 : ∀ r2 ∈ rest2, rest2.countP
              (fun r3 => decide (rkeyCR r3 = rkeyCR r2 ∧ r3.atom_name = "CA")) = 1 := by
            intro r2 hr2
            have h0 := hca r2 (List.mem_cons.mpr (Or.inr (hrest2sub r2 hr2)))
            rw [hrows, List.countP_append] at h0
            have hz : (r :: run).countP
                (fun r3 => decide (rkeyCR r3 = rkeyCR r2 ∧ r3.atom_name = "CA")) = 0 := by
              rw [List.countP_eq_zero]
              intro y hy
              have hk : rkeyCR y = rkeyCR r := by
                rcases List.mem_cons.mp hy with rfl | hy2
                · rfl
                · exact hrunkeys y hy2
              simp only [decide_eq_true_eq, not_and]
              intro hEq
              exact absurd (hEq ▸ hk) (hno r2 hr2)
            omega
          have hname2 : ∀ r2 ∈ rest2, ∀ r3 ∈ rest2, rkeyCR r3 = rkeyCR r2 →
              r3.residue_name = r2.residue_name := by
            intro r2 hr2 r3 hr3 hk
            exact hname r2 (List.mem_cons.mpr (Or.inr (hrest2sub r2 hr2))) r3
              (List.mem_cons.mpr (Or.inr (hrest2sub r3 hr3))) hk
          have htail := ih rest2 hlen2 hrec hca2 hname2
          rw [keepFirstBy_cons, hfilter]
          conv_lhs => rw [hrows]
          rw [List.filter_append, List.map_append, hc0, List.map_cons, htail,
            List.map_cons, hc0proj]
          rfl

theorem subset_ca (d : List AtomRow) :
    subsetStructureToAtomType d "CA" = d.filter (fun r => decide (r.atom_name = "CA")) := by
  unfold subsetStructureToAtomType filterDataframe
  apply List.filter_congr
  intro r _
  by_cases h : r.atom_name = "CA" <;> simp [h]

theorem filter_ca_deprot (df : List AtomRow) :
    (deprotonateStructure df).filter (fun r => decide (r.atom_name = "CA")) =
      df.filter (fun r => decide (r.atom_name = "CA")) := by
  unfold deprotonateStructure filterDataframe
  rw [List.filter_filter]
  apply List.filter_congr
  intro r _
  by_cases h : r.atom_name = "CA" <;> simp [h]

theorem convert_map_proj {β : Type _} (d1 : List AtomRow) (proj : AtomRow → β)
    (hproj : ∀ (r : AtomRow) (x y z : Option ℚ),
      proj { r with x_coord := x, y_coord := y, z_coord := z } = proj r) :
    (convertStructureToCentroids d1).map proj =
      (d1.filter (fun r => decide (r.atom_name = "CA"))).map proj := by
  unfold convertStructureToCentroids
  exact map_proj_enumFrom _ proj
    (by
      intro n x
      cases h : (calculateCentroidPositions d1).get? n <;> simp [h, hproj])
    _ 0

theorem removeInsertions_eq_self (df : List AtomRow)
    (hnd : (df.map (fun r => (r.chain_id, r.residue_number, r.atom_name))).Nodup)
    (hclean : ∀ r ∈ df, r.insertion = "" ∧ r.alt_loc = "") :
    removeInsertions df = df := by
  simp only [removeInsertions]
  rw [keepFirstBy_eq_self _ df.length df le_rfl hnd]
  have h1 : filterDataframe df (fun r => r.insertion) [""] true = df := by
    unfold filterDataframe
    rw [List.filter_eq_self]
    intro r hr
    simp [(hclean r hr).1]
  rw [h1]
  unfold filterDataframe
  rw [List.filter_eq_self]
  intro r hr
  simp [(hclean r hr).2]

theorem all_proj_of_map_eq {β : Type _} {l1 l2 : List AtomRow} (proj : AtomRow → β)
    (h : l1.map proj = l2.map proj) (P : β → Prop) (h2 : ∀ r ∈ l2, P (proj r)) :
    ∀ r ∈ l1, P (proj r) := by
  intro r hr
  have hmem : proj r ∈ l1.map proj := List.mem_map_of_mem proj hr
  rw [h] at hmem
  obtain ⟨r2, hr2, hEq⟩ := List.mem_map.mp hmem
  exact hEq ▸ h2 r2 hr2

/-- The processed table of `construct_graph` at CA or centroid granularity
projects, chain and residue name wise, to the CA rows of the input table. -/
theorem processed_map_projCN (df : List AtomRow) (gran : String)
    (hg : gran = "CA" ∨ gran = "centroids")
    (hnd : ((df.filter (fun r => decide (r.atom_name = "CA"))).map
      (fun r => (r.chain_id, r.residue_number, r.atom_name))).Nodup)
    (hclean : ∀ r ∈ df, r.insertion = "" ∧ r.alt_loc = "") :
    (processDataframe df gran "all" false).map projCN =
      (df.filter (fun r => decide (r.atom_name = "CA"))).map projCN := by
  have htriple : ∀ (r : AtomRow) (x y z : Option ℚ),
      (fun r => (r.chain_id, r.residue_number, r.atom_name))
        ({ r with x_coord := x, y_coord := y, z_coord := z } : AtomRow) =
      (fun r => (r.chain_id, r.residue_number, r.atom_name)) r := by
    intro r x y z
    rfl
  rcases hg with rfl | rfl
  · have hps : processDataframe df "CA" "all" false =
        removeInsertions (df.filter (fun r => decide (r.atom_name = "CA"))) := by
      simp [processDataframe, selectChains, subset_ca, filter_ca_deprot]
    rw [hps, removeInsertions_eq_self _ hnd
      (fun r hr => hclean r (List.mem_filter.mp hr).1)]
  · have hconv_triple : (convertStructureToCentroids (deprotonateStructure df)).map
        (fun r => (r.chain_id, r.residue_number, r.atom_name)) =
        (df.filter (fun r => decide (r.atom_name = "CA"))).map
          (fun r => (r.chain_id, r.residue_number, r.atom_name)) := by
      rw [convert_map_proj _ _ htriple, filter_ca_deprot]
    have hconv_ins : (convertStructureToCentroids (deprotonateStructure df)).map
        (fun r => (r.insertion, r.alt_loc)) =
        (df.filter (fun r => decide (r.atom_name = "CA"))).map
          (fun r => (r.insertion, r.alt_loc)) := by
      rw [convert_map_proj _ _ (by intro r x y z; rfl), filter_ca_deprot]
    have hclean2 : ∀ r ∈ convertStructureToCentroids (deprotonateStructure df),
        r.insertion = "" ∧ r.alt_loc = "" := by
      have h2 := all_proj_of_map_eq (fun r => (r.insertion, r.alt_loc)) hconv_ins
        (fun p => p.1 = "" ∧ p.2 = "")
        (fun r hr => hclean r (List.mem_filter.mp hr).1)
      intro r hr
      exact h2 r hr
    have hnd2 : ((convertStructureToCentroids (deprotonateStructure df)).map
        (fun r => (r.chain_id, r.residue_number, r.atom_name))).Nodup := by
      rw [hconv_triple]
      exact hnd
    have hps : processDataframe df "centroids" "all" false =
        removeInsertions (convertStructureToCentroids (deprotonateStructure df)) := by
      simp [processDataframe, selectChains]
    rw [hps, removeInsertions_eq_self _ hnd2 hclean2,
      convert_map_proj _ _ (by intro r x y z; rfl), filter_ca_deprot]

/-- Residues of a record table: the first row of each (chain, residue-number)
key, in table order. -/
def residueReps (rows : List AtomRow) : List AtomRow := keepFirstBy rkeyCR rows

/-- Specification-side per-chain sequence: one-letter codes of the chain
residues in table order, concatenated. -/
def directChainSeq (rows : List AtomRow) (c : String) : String :=
  sequenceString (residueReps rows) c

theorem sequenceString_congr_proj (df1 df2 : List AtomRow)
    (h : df1.map projCN = df2.map projCN) (c : String) :
    sequenceString df1 c = sequenceString df2 c := by
  unfold sequenceString
  have key : ∀ df : List AtomRow,
      (df.filter (fun r => decide (r.chain_id = c))).map
        (fun r => threeToOneWithMods r.residue_name) =
      ((df.map projCN).filter (fun p => decide (p.1 = c))).map
        (fun p => threeToOneWithMods p.2) := by
    intro df
    rw [filter_map_eq projCN (fun p => decide (p.1 = c)) df, List.map_map]
    rfl
  rw [key df1, key df2, h]

theorem map_chain_eq_of_proj {df1 df2 : List AtomRow}
    (h : df1.map projCN = df2.map projCN) :
    df1.map (fun r => r.chain_id) = df2.map (fun r => r.chain_id) := by
  have h2 : (df1.map projCN).map Prod.fst = (df2.map projCN).map Prod.fst := by rw [h]
  rw [List.map_map, List.map_map] at h2
  exact h2

/-- Claim C6 (amended): at named-atom (CA) and centroid granularity, for a
record table whose residues are contiguous runs of rows agreeing on the
residue name, with exactly one CA row per residue and no insertion or
alternate-location codes, building the graph and reading the per-chain
sequence metadata yields exactly the one-letter codes of that chain's
residues in table order (and nothing for absent chains); at atomic
granularity granularity-independence fails, see the counterexample. -/
theorem sequence_roundtrip (rows : List AtomRow) (gran : String)
    (hg : gran = "CA" ∨ gran = "centroids")
    (name code path : Option String) (hex : srcExclusivityOk code path = true)
    (hcontig : runsOkBy rkeyCR rows = true)
    (hca : ∀ r ∈ rows, rows.countP
      (fun r2 => decide (rkeyCR r2 = rkeyCR r ∧ r2.atom_name = "CA")) = 1)
    (hname : ∀ r ∈ rows, ∀ r2 ∈ rows, rkeyCR r2 = rkeyCR r →
      r2.residue_name = r.residue_name)
    (hclean : ∀ r ∈ rows, r.insertion = "" ∧ r.alt_loc = "") :
    ∃ g, constructGraph rows name path code "all" gran false = .ok g ∧
      ∀ c : String, lookupA g.sequences c =
        if c ∈ (residueReps rows).map (fun r => r.chain_id)
        then some (directChainSeq rows c) else none := by
  have hnd_rows : ((rows.filter (fun r => decide (r.atom_name = "CA"))).map
      (fun r => (r.chain_id, r.residue_number, r.atom_name))).Nodup := by
    apply nodup_map_of_countP
    intro x hx
    have hx_rows : x ∈ rows := (List.mem_filter.mp hx).1
    have h1 : (rows.filter (fun r => decide (r.atom_name = "CA"))).countP
        (fun y => decide ((y.chain_id, y.residue_number, y.atom_name) =
          (x.chain_id, x.residue_number, x.atom_name))) ≤
        rows.countP (fun r2 => decide (rkeyCR r2 = rkeyCR x ∧ r2.atom_name = "CA")) := by
      rw [List.countP_filter]
      apply List.countP_mono_left
      intro y _
      simp only [Bool.and_eq_true, decide_eq_true_eq, Prod.mk.injEq, rkeyCR]
      intro ⟨⟨h1, h2, h3⟩, hq⟩
      exact ⟨⟨h1, h2⟩, hq⟩
    rw [hca x hx_rows] at h1
    exact h1
  have hraw_filter : (readPdbAssignNodeIds rows gran).filter
      (fun r => decide (r.atom_name = "CA")) =
      (rows.filter (fun r => decide (r.atom_name = "CA"))).map
        (fun r => { r with node_id := mkNodeId r gran }) := by
    unfold readPdbAssignNodeIds
    rw [filter_map_eq]
  have hnd_raw : (((readPdbAssignNodeIds rows gran).filter
      (fun r => decide (r.atom_name = "CA"))).map
      (fun r => (r.chain_id, r.residue_number, r.atom_name))).Nodup := by
    rw [hraw_filter, List.map_map]
    exact hnd_rows
  have hclean_raw : ∀ r ∈ readPdbAssignNodeIds rows gran,
      r.insertion = "" ∧ r.alt_loc = "" := by
    intro r hr
    obtain ⟨r0, hr0, hEq⟩ := List.mem_map.mp hr
    rw [← hEq]
    exact hclean r0 hr0
  have hPproj := processed_map_projCN (readPdbAssignNodeIds rows gran) gran hg
    hnd_raw hclean_raw
  have hreps := ca_eq_reps rows.length rows le_rfl hcontig hca hname
  have hPreps : (processDataframe (readPdbAssignNodeIds rows gran) gran "all" false).map
      projCN = (residueReps rows).map projCN := by
    rw [hPproj, hraw_filter, List.map_map]
    exact hreps
  refine ⟨addNodesToGraph
    { name := if pyTruthy name then name
        else if pyTruthy path then some (getProteinNameFromFilename (path.getD ""))
        else code,
      pdb_code := code, pdb_path := path,
      chain_ids := keepFirstBy id ((processDataframe (readPdbAssignNodeIds rows gran)
        gran "all" false).map (fun r => r.chain_id)),
      sequences := (keepFirstBy id ((processDataframe (readPdbAssignNodeIds rows gran)
        gran "all" false).map (fun r => r.chain_id))).map
        (fun c => (c, sequenceString (processDataframe (readPdbAssignNodeIds rows gran)
          gran "all" false) c)),
      node_type := gran, nodes := [] }
    (processDataframe (readPdbAssignNodeIds rows gran) gran "all" false), ?_, ?_⟩
  · simp [constructGraph, initialiseGraphWithMetadata, hex]
  · intro c
    show lookupA ((keepFirstBy id ((processDataframe (readPdbAssignNodeIds rows gran)
        gran "all" false).map (fun r => r.chain_id))).map
        (fun c => (c, sequenceString (processDataframe (readPdbAssignNodeIds rows gran)
          gran "all" false) c))) c = _
    rw [lookupA_pair_map]
    have hchains : (processDataframe (readPdbAssignNodeIds rows gran) gran "all"
        false).map (fun r => r.chain_id) = (residueReps rows).map (fun r => r.chain_id) :=
      map_chain_eq_of_proj hPreps
    have hcond : (c ∈ keepFirstBy id ((processDataframe (readPdbAssignNodeIds rows gran)
        gran "all" false).map (fun r => r.chain_id))) ↔
        (c ∈ (residueReps rows).map (fun r => r.chain_id)) := by
      rw [mem_keepFirstBy_id ((processDataframe (readPdbAssignNodeIds rows gran)
        gran "all" false).map (fun r => r.chain_id)).length _ le_rfl c, hchains]
    have hval : sequenceString (processDataframe (readPdbAssignNodeIds rows gran)
        gran "all" false) c = directChainSeq rows c :=
      sequenceString_congr_proj _ _ hPreps c
    by_cases hc : c ∈ (residueReps rows).map (fun r => r.chain_id)
    · rw [if_pos (hcond.mpr hc), if_pos hc, hval]
    · rw [if_neg (fun h => hc (hcond.mp h)), if_neg hc]

/-- A one-residue table with two atoms, for the atomic-granularity
counterexample. -/
def seqCexTable : List AtomRow := [
  { chain_id := "A", residue_name := "GLY", residue_number := 1, atom_name := "N" },
  { chain_id := "A", residue_name := "GLY", residue_number := 1, atom_name := "CA" }]

/-- Counterexample to claim C6 as stated: at atomic granularity the reduced
table keeps one row per atom, so the stored chain sequence repeats the
residue letter once per atom (GG for a two-atom glycine) instead of the
per-residue G; granularity-independence of the round-trip fails. -/
theorem sequence_roundtrip_atom_cex :
    (constructGraph seqCexTable none none (some "1abc") "all" "atom" false).toOption.map
      (fun g => lookupA g.sequences "A") = some (some "GG") ∧
    directChainSeq seqCexTable "A" = "G" := by
  decide

/-- A two-chain, three-residue table with a well-formed layout, for the
witness. -/
def seqWitTable : List AtomRow := [
  { chain_id := "A", residue_name := "GLY", residue_number := 1, atom_name := "N" },
  { chain_id := "A", residue_name := "GLY", residue_number := 1, atom_name := "CA" },
  { chain_id := "A", residue_name := "ALA", residue_number := 2, atom_name := "CA" },
  { chain_id := "B", residue_name := "SER", residue_number := 1, atom_name := "CA" }]

/-- Witness for C6 (amended) at CA granularity on a concrete two-chain table:
chain A reads GA, chain B reads S, absent chains read nothing. -/
theorem sequence_roundtrip_witness :
    ∃ g, constructGraph seqWitTable none none (some "1abc") "all" "CA" false = .ok g ∧
      lookupA g.sequences "A" = some "GA" ∧
      lookupA g.sequences "B" = some "S" ∧
      lookupA g.sequences "C" = none := by
  obtain ⟨g, hok, hseq⟩ := sequence_roundtrip seqWitTable "CA" (Or.inl rfl)
    none (some "1abc") none (by decide) (by decide) (by decide) (by decide) (by decide)
  refine ⟨g, hok, ?_, ?_, ?_⟩
  · rw [hseq "A"]
    decide
  · rw [hseq "B"]
    decide
  · rw [hseq "C"]
    decide

/-! ### Claim C5: the chain graph (`compute_chain_graph`, graphs.py 756-823) -/

/-- Graph-level metadata carried by a protein structure graph: the chain-id
list recorded at construction time and the node-type tag. -/
structure GraphMeta where
  chain_ids : List String
  node_type : String
  deriving DecidableEq

/-- Read a node attribute expected to hold a string: a missing key raises
`KeyError`, a value of another type `TypeError`. -/
def attrStr (d : Attrs) (k : String) : Except PyErr String :=
  match lookupA d k with
  | some (.str s) => .ok s
  | some _ => .error .typeError
  | none => .error .keyError

/-- Modelled from the spec: `extract_subgraph_from_chains`
(graphein.protein.subgraphs, not under src/) keeps exactly the nodes whose
`chain_id` attribute lies in the chain list and the edges with both endpoints
surviving, and leaves the graph-level metadata unchanged. -/
def extractSubgraphFromChains (g : MGraph GraphMeta) (l : List String) :
    MGraph GraphMeta :=
  let keep := g.nodes.filter (fun nd =>
    match lookupA nd.2 "chain_id" with
    | some (AttrVal.str s) => decide (s ∈ l)
    | _ => false)
  { nodes := keep,
    edges := g.edges.filter (fun e =>
      (lookupA keep e.u).isSome && (lookupA keep e.v).isSome),
    meta := g.meta }

/-- The optional chain restriction of `compute_chain_graph` (787-788). -/
def restrictOpt (g : MGraph GraphMeta) : Option (List String) → MGraph GraphMeta
  | some l => extractSubgraphFromChains g l
  | none => g

/-- The accumulation loop of `compute_chain_graph` (798-800): for each source
node bump the residue count of its chain and append its one-letter code to the
chain sequence; a chain id outside the dictionaries (keyed by the metadata
chain list) or a residue name outside `RESI_THREE_TO_1` raises `KeyError`. -/
def chainAccum : List (String × Attrs) → List (String × Nat) →
    List (String × String) →
    Except PyErr (List (String × Nat) × List (String × String))
  | [], npc, seqs => .ok (npc, seqs)
  | (_, d) :: rest, npc, seqs =>
      match attrStr d "chain_id" with
      | .error e => .error e
      | .ok c =>
          match lookupA npc c with
          | none => .error .keyError
          | some n =>
              match attrStr d "residue_name" with
              | .error e => .error e
              | .ok rn =>
                  match lookupA RESI_THREE_TO_1 rn with
                  | none => .error .keyError
                  | some letter =>
                      match lookupA seqs c with
                      | none => .error .keyError
                      | some s =>
                          chainAccum rest (setA npc c (n + 1))
                            (setA seqs c (s ++ letter))

/-- The edge loop of `compute_chain_graph` (809-812): map each source edge to
an edge between the endpoint chains, keeping the kind set; an endpoint missing
from the node dictionary or lacking a `chain_id` attribute raises an error. -/
def chainEdges (nodes : List (String × Attrs)) : List MEdge →
    Except PyErr (List MEdge)
  | [] => .ok []
  | e :: rest =>
      match lookupA nodes e.u with
      | none => .error .keyError
      | some du =>
          match attrStr du "chain_id" with
          | .error err => .error err
          | .ok cu =>
              match lookupA nodes e.v with
              | none => .error .keyError
              | some dv =>
                  match attrStr dv "chain_id" with
                  | .error err => .error err
                  | .ok cv =>
                      match chainEdges nodes rest with
                      | .error err => .error err
                      | .ok t => .ok ({ u := cu, v := cv, kind := e.kind } :: t)

/-- `compute_chain_graph` (graphs.py 756-823) without the weighted collapse:
restrict to the requested chains if any, tag the metadata as a chain graph,
accumulate per-chain residue counts and sequences over the source nodes, add
one node per (deduplicated) entry of the metadata chain list carrying those
attributes, and translate every source edge to a chain-chain edge.  The
`num_residues` and `sequence` lookups always succeed because the dictionaries
are keyed by exactly the metadata chain list, so `getD` stands in for the
always-successful subscript. -/
def computeChainGraphMG (g : MGraph GraphMeta) (chain_list : Option (List String))
    (remove_self_loops : Bool) : Except PyErr (MGraph GraphMeta) :=
  match chainAccum (restrictOpt g chain_list).nodes
      ((restrictOpt g chain_list).meta.chain_ids.foldl (fun d c => setA d c 0) [])
      ((restrictOpt g chain_list).meta.chain_ids.foldl (fun d c => setA d c "") []) with
  | .error e => .error e
  | .ok (npc, seqs) =>
      match chainEdges (restrictOpt g chain_list).nodes
          (restrictOpt g chain_list).edges with
      | .error e => .error e
      | .ok es =>
          .ok { nodes := (keepFirstBy id (restrictOpt g chain_list).meta.chain_ids).map
                  (fun c =>
                    (c, [("num_residues", AttrVal.nat ((lookupA npc c).getD 0)),
                         ("sequence", AttrVal.str ((lookupA seqs c).getD ""))])),
                edges := if remove_self_loops
                  then es.filter (fun e => !decide (e.u = e.v)) else es,
                meta := { (restrictOpt g chain_list).meta with node_type := "chain" } }

/-- `compute_chain_graph` including the `return_weighted_graph` branch (821-823). -/
def computeChainGraph (g : MGraph GraphMeta) (chain_list : Option (List String))
    (remove_self_loops return_weighted : Bool) :
    Except PyErr (Sum (MGraph GraphMeta) (WGraph GraphMeta)) :=
  match computeChainGraphMG g chain_list remove_self_loops with
  | .error e => .error e
  | .ok h =>
      if return_weighted then
        match computeWeightedGraphFromMultigraph h with
        | .error e => .error e
        | .ok w => .ok (Sum.inr w)
      else .ok (Sum.inl h)

/-- The chain ids actually present on the nodes of a graph, in node order. -/
def survivingChains (g : MGraph GraphMeta) : List String :=
  g.nodes.filterMap (fun nd =>
    match lookupA nd.2 "chain_id" with
    | some (AttrVal.str s) => some s
    | _ => none)

theorem restrictOpt_meta (g : MGraph GraphMeta) (cl : Option (List String)) :
    (restrictOpt g cl).meta = g.meta := by
  cases cl with
  | none => rfl
  | some l => rfl

theorem computeChainGraphMG_nodes (g : MGraph GraphMeta) (cl : Option (List String))
    (rsl : Bool) (h : MGraph GraphMeta)
    (hok : computeChainGraphMG g cl rsl = .ok h) :
    h.nodes.map Prod.fst = keepFirstBy id g.meta.chain_ids := by
  rw [← restrictOpt_meta g cl]
  unfold computeChainGraphMG at hok
  cases hacc : chainAccum (restrictOpt g cl).nodes
      ((restrictOpt g cl).meta.chain_ids.foldl (fun d c => setA d c 0) [])
      ((restrictOpt g cl).meta.chain_ids.foldl (fun d c => setA d c "") []) with
  | error e =>
      rw [hacc] at hok
      exact absurd hok (by simp)
  | ok pr =>
      obtain ⟨npc, seqs⟩ := pr
      rw [hacc] at hok
      simp only [] at hok
      cases hed : chainEdges (restrictOpt g cl).nodes (restrictOpt g cl).edges with
      | error e =>
          rw [hed] at hok
          exact absurd hok (by simp)
      | ok es =>
          rw [hed] at hok
          simp only [] at hok
          injection hok with h1
          rw [← h1]
          simp [List.map_map, Function.comp_def]

/-- Claim C5 (corrected): every chain graph returned by `compute_chain_graph`
has one node per distinct entry of the graph-level `chain_ids` metadata of the
source graph — a list that chain restriction does not update — rather than one
per distinct chain id among the surviving source nodes. -/
theorem chain_graph_node_count (g : MGraph GraphMeta) (cl : Option (List String))
    (rsl : Bool) (h : MGraph GraphMeta)
    (hok : computeChainGraph g cl rsl false = .ok (Sum.inl h)) :
    h.nodes.map Prod.fst = keepFirstBy id g.meta.chain_ids ∧
    h.nodes.length = (keepFirstBy id g.meta.chain_ids).length := by
  have hmg : computeChainGraphMG g cl rsl = .ok h := by
    unfold computeChainGraph at hok
    cases hx : computeChainGraphMG g cl rsl with
    | error e =>
        rw [hx] at hok
        exact absurd hok (by simp)
    | ok h0 =>
        rw [hx] at hok
        simp only [Bool.false_eq_true, if_false, Except.ok.injEq, Sum.inl.injEq] at hok
        subst hok
        rfl
  have hn := computeChainGraphMG_nodes g cl rsl h hmg
  exact ⟨hn, by rw [← hn, List.length_map]⟩

/-- A consistent single-chain source graph for the C5 witness. -/
def chainWitG : MGraph GraphMeta :=
  { nodes := [("A:GLY:1", [("chain_id", AttrVal.str "A"),
                           ("residue_name", AttrVal.str "GLY")]),
              ("A:ALA:2", [("chain_id", AttrVal.str "A"),
                           ("residue_name", AttrVal.str "ALA")])],
    edges := [],
    meta := { chain_ids := ["A"], node_type := "CA" } }

/-- The chain graph of `chainWitG`. -/
def chainWitH : MGraph GraphMeta :=
  { nodes := [("A", [("num_residues", AttrVal.nat 2),
                     ("sequence", AttrVal.str "GA")])],
    edges := [],
    meta := { chain_ids := ["A"], node_type := "chain" } }

/-- Witness for C5 at a concrete graph: one chain-graph node for the single
distinct chain id of the metadata. -/
theorem chain_graph_node_count_witness :
    chainWitH.nodes.map Prod.fst = keepFirstBy id chainWitG.meta.chain_ids ∧
    chainWitH.nodes.length = (keepFirstBy id chainWitG.meta.chain_ids).length :=
  chain_graph_node_count chainWitG none false chainWitH (by decide)

/-- A two-chain source graph whose metadata records both chains, for the C5
counterexample. -/
def chainCexG : MGraph GraphMeta :=
  { nodes := [("A:GLY:1", [("chain_id", AttrVal.str "A"),
                           ("residue_name", AttrVal.str "GLY")]),
              ("B:ALA:1", [("chain_id", AttrVal.str "B"),
                           ("residue_name", AttrVal.str "ALA")])],
    edges := [],
    meta := { chain_ids := ["A", "B"], node_type := "CA" } }

/-- Counterexample to claim C5 as stated: restricting `chainCexG` to chain A
leaves a single distinct chain id among the surviving nodes, yet the derived
chain graph has two nodes, because its node set is built from the stale
graph-level `chain_ids` metadata that the restriction leaves in place. -/
theorem chain_graph_node_count_cex :
    (match computeChainGraph chainCexG (some ["A"]) false false with
     | .ok (Sum.inl h) => some (h.nodes.length, h.nodes.map Prod.fst)
     | _ => none) = some (2, ["A", "B"]) ∧
    keepFirstBy id (survivingChains (extractSubgraphFromChains chainCexG ["A"])) =
      ["A"] := by
  decide

/-! ### Claim C8: the secondary-structure graph
(`compute_secondary_structure_graph`, graphs.py 873-968) -/

/-- Whether the first character list occurs at the head of the second. -/
def leadsChars : List Char → List Char → Bool
  | [], _ => true
  | _ :: _, [] => false
  | a :: as, b :: bs => a = b && leadsChars as bs

/-- Whether the first character list occurs somewhere inside the second: the
substring test behind the pandas `str.contains` filters (the patterns used —
`-` and joined secondary-structure codes — contain no regex metacharacters, so
regex containment is literal-substring containment). -/
def containsChars (p : List Char) : List Char → Bool
  | [] => leadsChars p []
  | b :: bs => leadsChars p (b :: bs) || containsChars p bs

/-- `series.str.contains(pat)` on a literal pattern. -/
def strContains (s pat : String) : Bool := containsChars pat.data s.data

/-- The string image of an attribute value (`astype(str)`); the `ss` labels
produced by DSSP are plain strings, for which this is the identity, and the
numbering and filtering steps only ever see this image. -/
def attrValRepr : AttrVal → String
  | .nat n => toString n
  | .str v => v
  | .strs l => String.intercalate "," l
  | .kinds l => String.intercalate "," l

/-- The checking loop of `compute_secondary_structure_graph` (902-909): walk
the node dictionaries, raising the configuration error at the first node
whose dictionary has no `ss` key, and collecting the labels otherwise. -/
def collectSS : List (String × Attrs) → Except PyErr (List String)
  | [] => .ok []
  | (_, d) :: rest =>
      match lookupA d "ss" with
      | none => .error .configurationError
      | some v =>
          match collectSS rest with
          | .error e => .error e
          | .ok l => .ok (attrValRepr v :: l)

/-- The numbered, node-indexed and filtered label series (lines 911-923):
number the runs, index by the node ids, drop unstructured segments when
`remove_non_ss` (value contains `-`), and, when a non-empty allowable list is
given (Python truthiness of the argument), keep only values containing one of
its elements. -/
def ssSeries (g : MGraph GraphMeta) (allowable : Option (List String))
    (remove_non_ss : Bool) (vals : List String) : List (String × String) :=
  let series0 := (g.nodes.map Prod.fst).zip (numberGroupsOfRuns vals)
  let series1 := if remove_non_ss
    then series0.filter (fun p => !strContains p.2 "-") else series0
  match allowable with
  | some (a :: l) =>
      series1.filter (fun p => (a :: l).any (fun pat => strContains p.2 pat))
  | _ => series1

/-- Node construction (lines 925-940): one node per distinct series value,
with the count of constituent residues, their ids, and the first character of
the segment id as the `ss` attribute; subscripting an empty segment id would
raise `IndexError`. -/
def ssNodesGo (series : List (String × String)) :
    List String → Except PyErr (List (String × Attrs))
  | [] => .ok []
  | n :: rest =>
      match n.data with
      | [] => .error .indexError
      | c :: _ =>
          match ssNodesGo series rest with
          | .error e => .error e
          | .ok t =>
              .ok ((n,
                [("residue_counts",
                    AttrVal.nat (series.countP (fun p => p.2 = n))),
                 ("constituent_residues",
                    AttrVal.strs (series.filterMap
                      (fun p => if p.2 = n then some p.1 else none))),
                 ("ss", AttrVal.str (String.mk [c]))]) :: t)

/-- The edge loop (lines 946-956): translate each source edge to a
segment-segment edge with the source pair recorded; an endpoint missing from
the filtered series raises `KeyError`, which is caught and skips the edge. -/
def ssEdges (series : List (String × String)) : List MEdge → List MEdge
  | [] => []
  | e :: rest =>
      match lookupA series e.u, lookupA series e.v with
      | some su, some sv =>
          { u := su, v := sv, kind := e.kind,
            source := some (e.u ++ "_" ++ e.v) } :: ssEdges series rest
      | _, _ => ssEdges series rest

/-- The assembled secondary-structure multigraph (nodes, edges with optional
self-loop removal, retagged metadata; lines 941-966). -/
def ssMG (g : MGraph GraphMeta) (series : List (String × String))
    (ns : List (String × Attrs)) (remove_self_loops : Bool) : MGraph GraphMeta :=
  { nodes := ns,
    edges := if remove_self_loops
      then (ssEdges series g.edges).filter (fun e => !decide (e.u = e.v))
      else ssEdges series g.edges,
    meta := { g.meta with node_type := "secondary_structure" } }

/-- The tail of `compute_secondary_structure_graph` (958-968): self-loop
removal and the optional weighted collapse. -/
def ssFinish (g : MGraph GraphMeta) (series : List (String × String))
    (ns : List (String × Attrs)) (remove_self_loops return_weighted : Bool) :
    Except PyErr (Sum (MGraph GraphMeta) (WGraph GraphMeta)) :=
  if return_weighted then
    match computeWeightedGraphFromMultigraph (ssMG g series ns remove_self_loops) with
    | .error e => .error e
    | .ok w => .ok (Sum.inr w)
  else .ok (Sum.inl (ssMG g series ns remove_self_loops))

/-- `compute_secondary_structure_graph` (graphs.py 873-968). -/
def computeSecondaryStructureGraph (g : MGraph GraphMeta)
    (allowable : Option (List String))
    (remove_non_ss remove_self_loops return_weighted : Bool) :
    Except PyErr (Sum (MGraph GraphMeta) (WGraph GraphMeta)) :=
  match collectSS g.nodes with
  | .error e => .error e
  | .ok vals =>
      match ssNodesGo (ssSeries g allowable remove_non_ss vals)
          (keepFirstBy id ((ssSeries g allowable remove_non_ss vals).map Prod.snd)) with
      | .error e => .error e
      | .ok ns =>
          ssFinish g (ssSeries g allowable remove_non_ss vals) ns
            remove_self_loops return_weighted

theorem pyIncr_error (a : Attrs) (k : String) (e : PyErr)
    (h : pyIncr a k = .error e) : e = PyErr.typeError := by
  unfold pyIncr at h
  cases hl : lookupA a k with
  | none =>
      rw [hl] at h
      exact absurd h (by simp)
  | some v =>
      rw [hl] at h
      cases v <;> simp_all

theorem pyIncrAll_error (ks : List String) :
    ∀ a e, pyIncrAll a ks = .error e → e = PyErr.typeError := by
  induction ks with
  | nil =>
      intro a e h
      exact absurd h (by simp [pyIncrAll])
  | cons k ks ih =>
      intro a e h
      rw [pyIncrAll] at h
      cases hp : pyIncr a k with
      | error e2 =>
          rw [hp, except_bind_error] at h
          injection h with h1
          rw [← h1]
          exact pyIncr_error a k e2 hp
      | ok a2 =>
          rw [hp, except_bind_ok] at h
          exact ih a2 e h

theorem collapseEdgeStep_error (st : List (String × Attrs) × List ((String × String) × Attrs))
    (ed : MEdge) (e : PyErr) (h : collapseEdgeStep st ed = .error e) :
    e = PyErr.typeError ∨ e = PyErr.keyError := by
  unfold collapseEdgeStep at h
  cases ha : lookupA st.2 (pairKey ed.u ed.v) with
  | none =>
      rw [ha] at h
      exact absurd h (by simp)
  | some a =>
      rw [ha] at h
      simp only [] at h
      cases hw : lookupA a "weight" with
      | none =>
          rw [hw] at h
          simp only [except_bind_error] at h
          injection h with h1
          exact Or.inr h1.symm
      | some v =>
          rw [hw] at h
          cases v with
          | nat w =>
              simp only [except_bind_ok] at h
              cases hk : lookupA (setA a "weight" (.nat (w + ed.kind.length))) "kind" with
              | none =>
                  rw [hk] at h
                  simp only [except_bind_error] at h
                  injection h with h1
                  exact Or.inr h1.symm
              | some v2 =>
                  rw [hk] at h
                  cases v2 with
                  | kinds ss =>
                      simp only [except_bind_ok] at h
                      cases hi : pyIncrAll (setA (setA a "weight" (.nat (w + ed.kind.length)))
                          "kind" (.kinds (listUnion ss ed.kind))) ed.kind with
                      | error e2 =>
                          rw [hi, except_bind_error] at h
                          injection h with h1
                          rw [← h1]
                          exact Or.inl (pyIncrAll_error _ _ _ hi)
                      | ok a2 =>
                          rw [hi, except_bind_ok] at h
                          exact absurd h (by simp)
                  | nat n =>
                      simp only [except_bind_error] at h
                      injection h with h1
                      exact Or.inl h1.symm
                  | str v3 =>
                      simp only [except_bind_error] at h
                      injection h with h1
                      exact Or.inl h1.symm
                  | strs l =>
                      simp only [except_bind_error] at h
                      injection h with h1
                      exact Or.inl h1.symm
          | str v2 =>
              simp only [except_bind_error] at h
              injection h with h1
              exact Or.inl h1.symm
          | strs l =>
              simp only [except_bind_error] at h
              injection h with h1
              exact Or.inl h1.symm
          | kinds ss =>
              simp only [except_bind_error] at h
              injection h with h1
              exact Or.inl h1.symm

theorem collapseGo_error (es : List MEdge) :
    ∀ st e, collapseGo st es = .error e →
      e = PyErr.typeError ∨ e = PyErr.keyError := by
  induction es with
  | nil =>
      intro st e h
      exact absurd h (by simp [collapseGo])
  | cons ed es ih =>
      intro st e h
      rw [collapseGo] at h
      cases hs : collapseEdgeStep st ed with
      | error e2 =>
          rw [hs, except_bind_error] at h
          injection h with h1
          rw [← h1]
          exact collapseEdgeStep_error st ed e2 hs
      | ok st2 =>
          rw [hs, except_bind_ok] at h
          exact ih st2 e h

theorem computeWeightedGraphFromMultigraph_error {μ : Type} (g : MGraph μ)
    (e : PyErr) (h : computeWeightedGraphFromMultigraph g = .error e) :
    e = PyErr.typeError ∨ e = PyErr.keyError := by
  unfold computeWeightedGraphFromMultigraph at h
  cases hc : collapseGo (addNodesFrom [] g.nodes, []) g.edges with
  | error e2 =>
      rw [hc, except_bind_error] at h
      injection h with h1
      rw [← h1]
      exact collapseGo_error g.edges _ e2 hc
  | ok st =>
      rw [hc, except_bind_ok] at h
      exact absurd h (by simp)

theorem ssNodesGo_error (series : List (String × String)) :
    ∀ l e, ssNodesGo series l = .error e → e = PyErr.indexError := by
  intro l
  induction l with
  | nil =>
      intro e h
      exact absurd h (by simp [ssNodesGo])
  | cons n rest ih =>
      intro e h
      rw [ssNodesGo] at h
      cases hd : n.data with
      | nil =>
          rw [hd] at h
          injection h with h1
          exact h1.symm
      | cons c cs =>
          rw [hd] at h
          simp only [] at h
          cases hr : ssNodesGo series rest with
          | error e2 =>
              rw [hr] at h
              simp only [] at h
              injection h with h1
              rw [← h1]
              exact ih e2 hr
          | ok t =>
              rw [hr] at h
              simp only [] at h
              exact absurd h (by simp)

theorem ssFinish_error (g : MGraph GraphMeta) (series : List (String × String))
    (ns : List (String × Attrs)) (rsl rwt : Bool) (e : PyErr)
    (h : ssFinish g series ns rsl rwt = .error e) :
    e = PyErr.typeError ∨ e = PyErr.keyError := by
  cases rwt with
  | false =>
      simp [ssFinish] at h
  | true =>
      simp only [ssFinish, if_true] at h
      cases hw : computeWeightedGraphFromMultigraph (ssMG g series ns rsl) with
      | error e2 =>
          rw [hw] at h
          injection h with h1
          rw [← h1]
          exact computeWeightedGraphFromMultigraph_error _ e2 hw
      | ok w =>
          rw [hw] at h
          exact absurd h (by simp)

theorem collectSS_error (ns : List (String × Attrs)) :
    ∀ e, collectSS ns = .error e →
      e = PyErr.configurationError ∧ ∃ p ∈ ns, lookupA p.2 "ss" = none := by
  induction ns with
  | nil =>
      intro e h
      exact absurd h (by simp [collectSS])
  | cons q rest ih =>
      intro e h
      obtain ⟨n, d⟩ := q
      rw [collectSS] at h
      cases hl : lookupA d "ss" with
      | none =>
          rw [hl] at h
          injection h with h1
          exact ⟨h1.symm, (n, d), List.mem_cons_self _ _, hl⟩
      | some v =>
          rw [hl] at h
          simp only [] at h
          cases hr : collectSS rest with
          | error e2 =>
              rw [hr] at h
              simp only [] at h
              injection h with h1
              obtain ⟨h2, p, hp, hnone⟩ := ih e2 hr
              exact ⟨h1 ▸ h2, p, List.mem_cons_of_mem _ hp, hnone⟩
          | ok l =>
              rw [hr] at h
              simp only [] at h
              exact absurd h (by simp)

theorem collectSS_missing (ns : List (String × Attrs)) :
    (∃ p ∈ ns, lookupA p.2 "ss" = none) →
    collectSS ns = .error PyErr.configurationError := by
  induction ns with
  | nil =>
      rintro ⟨p, hp, -⟩
      cases hp
  | cons q rest ih =>
      rintro ⟨p, hp, hnone⟩
      obtain ⟨n, d⟩ := q
      rw [collectSS]
      cases hl : lookupA d "ss" with
      | none => rfl
      | some v =>
          rcases List.mem_cons.mp hp with hq | hmem
      

          · rw [hq] at hnone
            rw [hnone] at hl
            cases hl
          · rw [ih ⟨p, hmem, hnone⟩]

/-- Claim C8: secondary-structure graph derivation fails with the
configuration error exactly when some source node lacks the per-node `ss`
label; when every node carries it, that error cannot arise, whatever the
filtering, self-loop and weighting options. -/
theorem ss_graph_precondition (g : MGraph GraphMeta)
    (allowable : Option (List String)) (rns rsl rwt : Bool) :
    computeSecondaryStructureGraph g allowable rns rsl rwt =
      .error PyErr.configurationError ↔
    ∃ p ∈ g.nodes, lookupA p.2 "ss" = none := by
  constructor
  · intro h
    cases hc : collectSS g.nodes with
    | error e =>
        exact (collectSS_error g.nodes e hc).2
    | ok vals =>
        exfalso
        unfold computeSecondaryStructureGraph at h
        rw [hc] at h
        simp only [] at h
        cases hn : ssNodesGo (ssSeries g allowable rns vals)
            (keepFirstBy id ((ssSeries g allowable rns vals).map Prod.snd)) with
        | error e2 =>
            rw [hn] at h
            simp only [] at h
            injection h with h1
            have := ssNodesGo_error _ _ _ hn
            rw [h1] at this
            cases this
        | ok ns =>
            rw [hn] at h
            simp only [] at h
            rcases ssFinish_error g _ ns rsl rwt _ h with h2 | h2 <;> cases h2
  · intro hex
    unfold computeSecondaryStructureGraph
    rw [collectSS_missing g.nodes hex]

end Graphein
